import Mathlib

/-!
Verification of the BVH / tile-scheduler core of the `rt-summer` renderer.

The Rust sources (`src/bvh.rs`, `src/geometry.rs`, `src/render_threads.rs`)
are shallowly embedded below.  Machine floats (`f32`) are embedded as exact
rationals (`ℚ`): every floating-point operation of the source (min, max,
comparisons, field arithmetic) is mapped to the corresponding exact rational
operation, so the development reasons about the algorithms in exact
arithmetic.  `f32::MAX` is embedded by its exact rational value, so the
`AABB::EMPTY` sentinel and all comparisons against it behave as in the code
for inputs in the finite `f32` range.  Machine integers (`usize`, `u32`,
`u16`) are embedded as `Nat`; none of the embedded quantities can reach the
wrap-around range on well-formed inputs.  Vectors (`Vec<T>`) and slices are
embedded as `List`; partial indexing is embedded with `List.get?` / `List.getD`.

Primitives are external collaborators of the BVH (spec §6): the BVH code
only uses their `aabb()` and `intersect(ray)` capabilities, so a primitive
is embedded as a record of exactly those two capabilities.
-/

namespace RtSummer

/- Batteries marks the rational field operations irreducible; the concrete
evaluations below need them unfolded for kernel reduction. -/
attribute [local semireducible] Rat.add Rat.sub Rat.mul Rat.inv

/-! ## glam vector types (componentwise, as used by the source) -/

/-- Embedding of `glam::Vec3` with exact rational components. -/
structure Vec3 where
  x : ℚ
  y : ℚ
  z : ℚ
deriving DecidableEq

/-- Embedding of `glam::BVec3` (componentwise boolean mask). -/
structure BVec3 where
  x : Bool
  y : Bool
  z : Bool
deriving DecidableEq

/-- Componentwise minimum, `Vec3::min`. -/
def Vec3.vmin (a b : Vec3) : Vec3 := ⟨min a.x b.x, min a.y b.y, min a.z b.z⟩

/-- Componentwise maximum, `Vec3::max`. -/
def Vec3.vmax (a b : Vec3) : Vec3 := ⟨max a.x b.x, max a.y b.y, max a.z b.z⟩

/-- Componentwise addition. -/
def Vec3.add (a b : Vec3) : Vec3 := ⟨a.x + b.x, a.y + b.y, a.z + b.z⟩

/-- Componentwise subtraction. -/
def Vec3.sub (a b : Vec3) : Vec3 := ⟨a.x - b.x, a.y - b.y, a.z - b.z⟩

/-- Componentwise division (used for `Vec3::ONE / ray.dir`). -/
def Vec3.cdiv (a b : Vec3) : Vec3 := ⟨a.x / b.x, a.y / b.y, a.z / b.z⟩

/-- Division by a scalar (used for `(min + max) / 2`). -/
def Vec3.sdiv (a : Vec3) (q : ℚ) : Vec3 := ⟨a.x / q, a.y / q, a.z / q⟩

/-- Scaling by a scalar (used for `orig + dir * t`). -/
def Vec3.smul (q : ℚ) (a : Vec3) : Vec3 := ⟨q * a.x, q * a.y, q * a.z⟩

/-- Componentwise strict less-than mask, `Vec3::cmplt`. -/
def Vec3.cmplt (a b : Vec3) : BVec3 :=
  ⟨decide (a.x < b.x), decide (a.y < b.y), decide (a.z < b.z)⟩

/-- `Vec3::splat`. -/
def Vec3.splat (q : ℚ) : Vec3 := ⟨q, q, q⟩

/-- `Vec3::ONE`. -/
def Vec3.one : Vec3 := ⟨1, 1, 1⟩

/-- `Vec3::ZERO`. -/
def Vec3.zero : Vec3 := ⟨0, 0, 0⟩

/-- Embedding of `geometry::Axis`. -/
inductive Axis where
  | X
  | Y
  | Z
deriving DecidableEq

/-- Indexing a vector by an axis (`v[axis as usize]` in the source). -/
def Vec3.get (v : Vec3) : Axis → ℚ
  | Axis.X => v.x
  | Axis.Y => v.y
  | Axis.Z => v.z

/-- Exact rational value of `f32::MAX`, written as a numeral so that kernel
reduction evaluates it; `f32Max_eq` checks it against the formula
(2^24 - 1) * 2^104. -/
def f32Max : ℚ := 340282346638528859811704183484516925440

theorem f32Max_eq : f32Max = (2 ^ 24 - 1) * 2 ^ 104 := by
  norm_num [f32Max]

/-! ## AABB (`src/geometry.rs`) -/

/-- Embedding of `geometry::AABB`. -/
structure AABB where
  min : Vec3
  max : Vec3
deriving DecidableEq

/-- `AABB::new` (componentwise sorts the corners). -/
def AABB.new (a b : Vec3) : AABB := ⟨Vec3.vmin a b, Vec3.vmax a b⟩

/-- `AABB::union_point`. -/
def AABB.union_point (s : AABB) (b : Vec3) : AABB :=
  ⟨Vec3.vmin s.min b, Vec3.vmax s.max b⟩

/-- `AABB::union_aabb`. -/
def AABB.union_aabb (s : AABB) (b : AABB) : AABB :=
  ⟨Vec3.vmin s.min b.min, Vec3.vmax s.max b.max⟩

/-- `AABB::fits_within` (`self.min.cmpge(other.min).all() && self.max.cmple(other.max).all()`). -/
def AABB.fits_within (s : AABB) (other : AABB) : Bool :=
  decide (s.min.x ≥ other.min.x) && decide (s.min.y ≥ other.min.y) &&
    decide (s.min.z ≥ other.min.z) && decide (s.max.x ≤ other.max.x) &&
    decide (s.max.y ≤ other.max.y) && decide (s.max.z ≤ other.max.z)

/-- `AABB::diagonal`. -/
def AABB.diagonal (s : AABB) : Vec3 := s.max.sub s.min

/-- `AABB::offset_of`: normalized offset of a point, each axis normalized
only when the box has positive extent on that axis. -/
def AABB.offset_of (s : AABB) (other : Vec3) : Vec3 :=
  let off := other.sub s.min
  let ox := if s.max.x > s.min.x then off.x / (s.max.x - s.min.x) else off.x
  let oy := if s.max.y > s.min.y then off.y / (s.max.y - s.min.y) else off.y
  let oz := if s.max.z > s.min.z then off.z / (s.max.z - s.min.z) else off.z
  ⟨ox, oy, oz⟩

/-- `AABB::area` = 2 (dx dy + dx dz + dz dy). -/
def AABB.area (s : AABB) : ℚ :=
  let d := s.diagonal
  2 * (d.x * d.y + d.x * d.z + d.z * d.y)

/-- `AABB::center` = (min + max) / 2. -/
def AABB.center (s : AABB) : Vec3 := (s.min.add s.max).sdiv 2

/-- `AABB::max_axis`: axis of maximum diagonal extent, ties broken as in the
source (`X` only when strictly larger than both, else `Y` when strictly
larger than `Z`, else `Z`). -/
def AABB.max_axis (s : AABB) : Axis :=
  let diag := s.diagonal
  if diag.x > diag.y ∧ diag.x > diag.z then Axis.X
  else if diag.y > diag.z then Axis.Y
  else Axis.Z

/-- `AABB::is_empty` (`min == max`). -/
def AABB.is_empty (s : AABB) : Bool := decide (s.min = s.max)

/-- `AABB::EMPTY` sentinel: `min = +f32::MAX`, `max = -f32::MAX` (`f32::MIN`). -/
def AABB.EMPTY : AABB := ⟨Vec3.splat f32Max, Vec3.splat (-f32Max)⟩

/-- `Index<bool> for AABB`: `true` selects `max`, `false` selects `min`. -/
def AABB.sel (s : AABB) (b : Bool) : Vec3 := if b then s.max else s.min

/-- Embedding of `geometry::ray::Ray`.  `Ray::new` normalizes the direction;
the BVH consumes already-constructed rays, so the direction is a free field. -/
structure Ray where
  orig : Vec3
  dir : Vec3
deriving DecidableEq

/-- `AABB::intersects`: the slab test, parameterized by the precomputed
reciprocal direction and per-axis sign mask, exactly following the source
control flow. -/
def AABB.intersects (s : AABB) (ray : Ray) (ray_tmax : ℚ) (inv_ray_dir : Vec3)
    (dir_is_neg : BVec3) : Bool :=
  let tmin := ((s.sel dir_is_neg.x).x - ray.orig.x) * inv_ray_dir.x
  let tmax := ((s.sel (!dir_is_neg.x)).x - ray.orig.x) * inv_ray_dir.x
  let tymin := ((s.sel dir_is_neg.y).y - ray.orig.y) * inv_ray_dir.y
  let tymax := ((s.sel (!dir_is_neg.y)).y - ray.orig.y) * inv_ray_dir.y
  if tmin > tymax ∨ tymin > tmax then false
  else
    let tmin := if tymin > tmin then tymin else tmin
    let tmax := if tymax < tmax then tymax else tmax
    let tzmin := ((s.sel dir_is_neg.z).z - ray.orig.z) * inv_ray_dir.z
    let tzmax := ((s.sel (!dir_is_neg.z)).z - ray.orig.z) * inv_ray_dir.z
    if tmin > tzmax ∨ tzmin > tmax then false
    else
      let tmin := if tzmin > tmin then tzmin else tmin
      let tmax := if tzmax < tmax then tzmax else tmax
      decide (tmin < ray_tmax) && decide (tmax > 0)

/-! ## Hit records and primitives (interface boundary, spec §6) -/

/-- Embedding of the BVH-relevant projection of `scene::HitInfo` (`pos`,
`normal`, `t`; the material / uv / light payload fields play no role in the
traversal logic and are omitted). -/
structure HitInfo where
  pos : Vec3
  normal : Vec3
  t : ℚ
deriving DecidableEq

/-- A primitive as the BVH sees it (`TaggedPtr<Primitive>`): the only
capabilities consumed by `Bvh::build` and `Bvh::intersect` are `aabb()` and
`intersect(ray)` (spec §6 capability set). -/
structure Primitive where
  aabb : AABB
  intersect : Ray → Option HitInfo

instance : Inhabited Primitive := ⟨⟨AABB.EMPTY, fun _ => none⟩⟩

/-! ## Tile scheduler (`src/render_threads.rs`) -/

/-- `TILE_SIZE` constant. -/
def TILE_SIZE : Nat := 8

/-- Embedding of `FilmRenderState`.  The atomic cursor is embedded as a plain
natural number; `next_index` below threads it explicitly (the `fetch_add` is
a single atomic read-modify-write, so any concurrent execution is equivalent
to a sequence of these steps). -/
structure FilmRenderState where
  index : Nat
  width : Nat
  height : Nat
  max_index : Nat

/-- `FilmRenderState::new`: `max_index = width * height - TILE_SIZE`. -/
def FilmRenderState.new (width height : Nat) : FilmRenderState :=
  ⟨0, width, height, width * height - TILE_SIZE⟩

/-- `FilmRenderState::next_index`: fetch-and-add of `TILE_SIZE`, returning
the pre-increment cursor, or `none` once the pre-increment cursor has
reached `max_index`. -/
def FilmRenderState.next_index (s : FilmRenderState) :
    Option Nat × FilmRenderState :=
  let index := s.index
  let s := { s with index := s.index + TILE_SIZE }
  if index ≥ s.max_index then (none, s) else (some index, s)

/-- `FilmRenderState::reset`. -/
def FilmRenderState.reset (s : FilmRenderState) : FilmRenderState :=
  { s with index := 0 }

/-- State after `k` calls of `next_index` (the cursor advances by
`TILE_SIZE` on every call, including exhausted ones). -/
def stateAfterCalls (s : FilmRenderState) : Nat → FilmRenderState
  | 0 => s
  | k + 1 => ((stateAfterCalls s k).next_index).2

/-- Result of the `k`-th (0-based) call of `next_index` after state `s`. -/
def callResult (s : FilmRenderState) (k : Nat) : Option Nat :=
  ((stateAfterCalls s k).next_index).1

theorem stateAfterCalls_index (s : FilmRenderState) (k : Nat) :
    (stateAfterCalls s k).index = s.index + k * TILE_SIZE := by
  induction k with
  | zero => simp [stateAfterCalls]
  | succ k ih =>
    simp only [stateAfterCalls, FilmRenderState.next_index]
    split <;> simp [ih, Nat.succ_mul, Nat.add_assoc]

theorem stateAfterCalls_max_index (s : FilmRenderState) (k : Nat) :
    (stateAfterCalls s k).max_index = s.max_index := by
  induction k with
  | zero => rfl
  | succ k ih =>
    simp only [stateAfterCalls, FilmRenderState.next_index]
    split <;> simpa using ih

theorem callResult_reset_new (w h k : Nat) :
    callResult ((FilmRenderState.new w h).reset) k =
      if k * TILE_SIZE < w * h - TILE_SIZE then some (k * TILE_SIZE) else none := by
  have hidx := stateAfterCalls_index ((FilmRenderState.new w h).reset) k
  have hmax := stateAfterCalls_max_index ((FilmRenderState.new w h).reset) k
  have h0 : ((FilmRenderState.new w h).reset).index = 0 := rfl
  have hm : ((FilmRenderState.new w h).reset).max_index = w * h - TILE_SIZE := rfl
  rw [h0] at hidx
  rw [hm] at hmax
  simp only [callResult, FilmRenderState.next_index, ge_iff_le, hidx, hmax,
    Nat.zero_add]
  by_cases hlt : k * TILE_SIZE < w * h - TILE_SIZE
  · rw [if_neg (by omega), if_pos hlt]
  · rw [if_pos (by omega), if_neg hlt]

/-- C2: starting immediately after `reset()` on a `width × height` film with
`width * height ≥ TILE_SIZE`, the successive `next_index()` results are
`0, TILE_SIZE, 2 * TILE_SIZE, …`: the `k`-th call returns `k * TILE_SIZE`
exactly while that value is below `max_cursor = width * height - TILE_SIZE`
(so the returned blocks of `TILE_SIZE` consecutive indices are pairwise
disjoint and cover `[0, max_cursor)`), and every call whose pre-increment
cursor has reached `max_cursor` returns `none`. -/
theorem c2_next_index_tiles (w h : Nat) (hwh : TILE_SIZE ≤ w * h) :
    let s0 := (FilmRenderState.new w h).reset
    let maxc := w * h - TILE_SIZE
    (∀ k, callResult s0 k =
        if k * TILE_SIZE < maxc then some (k * TILE_SIZE) else none) ∧
    (∀ k k' i i' j, k ≠ k' → callResult s0 k = some i → callResult s0 k' = some i' →
        i ≤ j → j < i + TILE_SIZE → ¬ (i' ≤ j ∧ j < i' + TILE_SIZE)) ∧
    (∀ j, j < maxc → ∃ k i, callResult s0 k = some i ∧ i ≤ j ∧ j < i + TILE_SIZE) ∧
    (∀ k, maxc ≤ k * TILE_SIZE → callResult s0 k = none) := by
  refine ⟨fun k => callResult_reset_new w h k, ?_, ?_, ?_⟩
  · intro k k' i i' j hkk hk hk' hij hji
    rw [callResult_reset_new] at hk hk'
    by_cases h1 : k * TILE_SIZE < w * h - TILE_SIZE
    · by_cases h2 : k' * TILE_SIZE < w * h - TILE_SIZE
      · simp only [h1, h2, if_pos, Option.some.injEq] at hk hk'
        subst hk hk'
        rintro ⟨hij', hji'⟩
        rcases Nat.lt_or_ge k k' with hlt | hge
        · have : k * TILE_SIZE + TILE_SIZE ≤ k' * TILE_SIZE := by
            calc k * TILE_SIZE + TILE_SIZE = (k + 1) * TILE_SIZE := by ring
            _ ≤ k' * TILE_SIZE := Nat.mul_le_mul_right _ hlt
          omega
        · have hlt' : k' < k := Nat.lt_of_le_of_ne hge fun hc => hkk hc.symm
          have : k' * TILE_SIZE + TILE_SIZE ≤ k * TILE_SIZE := by
            calc k' * TILE_SIZE + TILE_SIZE = (k' + 1) * TILE_SIZE := by ring
            _ ≤ k * TILE_SIZE := Nat.mul_le_mul_right _ hlt'
          omega
      · simp [h2] at hk'
    · simp [h1] at hk
  · intro j hj
    refine ⟨j / TILE_SIZE, (j / TILE_SIZE) * TILE_SIZE, ?_, ?_, ?_⟩
    · rw [callResult_reset_new]
      have hle : (j / TILE_SIZE) * TILE_SIZE ≤ j := Nat.div_mul_le_self j TILE_SIZE
      simp [Nat.lt_of_le_of_lt hle hj]
    · exact Nat.div_mul_le_self j TILE_SIZE
    · simp only [TILE_SIZE] at *
      omega
  · intro k hk
    rw [callResult_reset_new]
    simp [Nat.not_lt_of_le hk]

/-- Witness for `c2_next_index_tiles` on a concrete 4 × 4 film. -/
theorem c2_next_index_tiles_witness :
    TILE_SIZE ≤ 4 * 4 ∧
      callResult ((FilmRenderState.new 4 4).reset) 0 = some 0 := by
  have h := c2_next_index_tiles 4 4 (by decide)
  exact ⟨by decide, by simpa using h.1 0⟩

/-- C9: `next_index()` on a film state whose `max_index` field was set up by
`new` for a `width × height` film (any cursor value, hence any sequence of
calls after any `reset()`) never returns an index `i ≥ width*height -
TILE_SIZE`; consequently every allocated tile `[i, i + TILE_SIZE)` ends at
or before pixel `width*height - 2`, and the last row-major pixel index
`width*height - 1` is never inside any allocated tile. -/
theorem c9_last_tile_bound (w h c i : Nat) (hwh : TILE_SIZE ≤ w * h)
    (hres : (FilmRenderState.next_index
        ⟨c, w, h, w * h - TILE_SIZE⟩).1 = some i) :
    i < w * h - TILE_SIZE ∧ i + TILE_SIZE - 1 ≤ w * h - 2 ∧
      ¬ (i ≤ w * h - 1 ∧ w * h - 1 < i + TILE_SIZE) := by
  unfold FilmRenderState.next_index at hres
  simp only [ge_iff_le] at hres
  split at hres
  · exact absurd hres (by simp)
  · next hlt =>
    have hi : c = i := by simpa using hres
    subst hi
    have hc : c < w * h - TILE_SIZE := Nat.lt_of_not_le hlt
    refine ⟨hc, by omega, by omega⟩

/-- Witness for `c9_last_tile_bound`: a 4 × 4 film with cursor 0. -/
theorem c9_last_tile_bound_witness :
    (0 : Nat) < 4 * 4 - TILE_SIZE ∧ 0 + TILE_SIZE - 1 ≤ 4 * 4 - 2 ∧
      ¬ ((0 : Nat) ≤ 4 * 4 - 1 ∧ 4 * 4 - 1 < 0 + TILE_SIZE) :=
  c9_last_tile_bound 4 4 0 0 (by decide) (by decide)

/-! ## C10: the EMPTY sentinel is the identity of `union_aabb` -/

/-- A box has finite (f32-representable, non-NaN) components when every
component lies in the finite `f32` range `[-f32::MAX, f32::MAX]`. -/
def AABB.finiteComponents (b : AABB) : Prop :=
  -f32Max ≤ b.min.x ∧ b.min.x ≤ f32Max ∧ -f32Max ≤ b.min.y ∧ b.min.y ≤ f32Max ∧
    -f32Max ≤ b.min.z ∧ b.min.z ≤ f32Max ∧ -f32Max ≤ b.max.x ∧ b.max.x ≤ f32Max ∧
    -f32Max ≤ b.max.y ∧ b.max.y ≤ f32Max ∧ -f32Max ≤ b.max.z ∧ b.max.z ≤ f32Max

instance (b : AABB) : Decidable b.finiteComponents := by
  unfold AABB.finiteComponents
  infer_instance

/-- C10: `AABB::EMPTY` is a two-sided identity of `AABB::union_aabb` on
boxes with finite, non-NaN components, and `union_aabb` is commutative and
associative (on all rational boxes, in particular on such boxes). -/
theorem c10_empty_union_identity :
    (∀ b : AABB, b.finiteComponents →
        AABB.EMPTY.union_aabb b = b ∧ b.union_aabb AABB.EMPTY = b) ∧
    (∀ a b : AABB, a.union_aabb b = b.union_aabb a) ∧
    (∀ a b c : AABB, (a.union_aabb b).union_aabb c = a.union_aabb (b.union_aabb c)) := by
  refine ⟨?_, ?_, ?_⟩
  · rintro ⟨⟨ax, ay, az⟩, ⟨bx, by', bz⟩⟩ hfin
    obtain ⟨h1, h2, h3, h4, h5, h6, h7, h8, h9, h10, h11, h12⟩ := hfin
    simp only [AABB.union_aabb, AABB.EMPTY, Vec3.splat, Vec3.vmin, Vec3.vmax] at *
    refine ⟨?_, ?_⟩ <;>
      · simp only [AABB.mk.injEq, Vec3.mk.injEq]
        refine ⟨⟨?_, ?_, ?_⟩, ?_, ?_, ?_⟩ <;> first
          | exact min_eq_right (by linarith)
          | exact max_eq_right (by linarith)
          | exact min_eq_left (by linarith)
          | exact max_eq_left (by linarith)
  · rintro ⟨⟨ax, ay, az⟩, ⟨ax2, ay2, az2⟩⟩ ⟨⟨bx, by', bz⟩, ⟨bx2, by2, bz2⟩⟩
    simp [AABB.union_aabb, Vec3.vmin, Vec3.vmax, min_comm, max_comm]
  · rintro a b c
    simp [AABB.union_aabb, Vec3.vmin, Vec3.vmax, min_assoc, max_assoc]

/-- Witness for `c10_empty_union_identity` at a concrete box. -/
theorem c10_empty_union_identity_witness :
    AABB.EMPTY.union_aabb (AABB.new ⟨0, 1, 2⟩ ⟨3, 4, 5⟩) =
      AABB.new ⟨0, 1, 2⟩ ⟨3, 4, 5⟩ :=
  (c10_empty_union_identity.1 (AABB.new ⟨0, 1, 2⟩ ⟨3, 4, 5⟩) (by decide)).1

/-! ## BVH builder (`src/bvh.rs`) -/

/-- Embedding of `BvhPrimitive` (build-time handle: original index plus box). -/
structure BvhPrimitive where
  id : Nat
  aabb : AABB

/-- Embedding of `BuildBvhNode` (the owned intermediate tree).  The source
uses a struct with two `Option<Box<_>>` children and maintains the tagged
invariant (leaf ↔ both children absent); it is embedded as the
corresponding sum. -/
inductive BuildBvhNode where
  | leaf (aabb : AABB) (first_prim_offset : Nat) (primitive_count : Nat)
  | interior (split_axis : Axis) (aabb : AABB) (child_l child_r : BuildBvhNode)

/-- The box stored in a build node. -/
def BuildBvhNode.nodeAabb : BuildBvhNode → AABB
  | BuildBvhNode.leaf a _ _ => a
  | BuildBvhNode.interior _ a _ _ => a

/-- `BuildBvhNode::new_interior`: box is the union of the children's boxes. -/
def BuildBvhNode.new_interior (split_axis : Axis) (child_l child_r : BuildBvhNode) :
    BuildBvhNode :=
  BuildBvhNode.interior split_axis (child_l.nodeAabb.union_aabb child_r.nodeAabb)
    child_l child_r

/-- `SAH_BUCKETS` constant. -/
def SAH_BUCKETS : Nat := 12

/-- `MAX_PRIMS_IN_NODE` constant. -/
def MAX_PRIMS_IN_NODE : Nat := 4

/-- `SPLIT_COUNT` constant (`SAH_BUCKETS - 1`). -/
def SPLIT_COUNT : Nat := SAH_BUCKETS - 1

/-- Embedding of `BvhSahBucket`. -/
structure BvhSahBucket where
  count : Nat
  aabb : AABB

/-- `BvhSahBucket::new_emnpty` (name as in the source). -/
def BvhSahBucket.new_emnpty : BvhSahBucket := ⟨0, AABB.EMPTY⟩

/-- In-place update of one list entry (a `Vec` element assignment); out of
range leaves the list unchanged (the source would panic, which is never
reached at the in-range call sites below). -/
def listModify : List α → Nat → (α → α) → List α
  | [], _, _ => []
  | x :: xs, 0, f => f x :: xs
  | x :: xs, n + 1, f => x :: listModify xs n f

/-- The bucket of a centroid: `(SAH_BUCKETS as f32 * offset)[axis] as usize`
(the float-to-integer cast truncates toward zero and saturates below at 0,
which on the reachable range `[0, SAH_BUCKETS]` is `Int.toNat ∘ floor`),
with the final bucket clamped (`if bucket == SAH_BUCKETS { bucket -= 1 }`). -/
def bucketIndex (centroids_aabb : AABB) (split_axis : Axis) (c : Vec3) : Nat :=
  let b := Int.toNat ⌊(SAH_BUCKETS : ℚ) * (centroids_aabb.offset_of c).get split_axis⌋
  if b = SAH_BUCKETS then b - 1 else b

/-- The bucket-filling loop of `build_recursive`. -/
def sahBuckets (centroids_aabb : AABB) (split_axis : Axis)
    (prims : List BvhPrimitive) : List BvhSahBucket :=
  prims.foldl
    (fun buckets prim =>
      listModify buckets (bucketIndex centroids_aabb split_axis prim.aabb.center)
        (fun bk => ⟨bk.count + 1, bk.aabb.union_aabb prim.aabb⟩))
    (List.replicate SAH_BUCKETS BvhSahBucket.new_emnpty)

/-- The cost of candidate split `i` as accumulated by the two prefix/suffix
loops of `build_recursive`: `costs[i]` receives the below part from buckets
`0..=i` (folded left-to-right) and the above part from buckets
`i+1..=SPLIT_COUNT` (folded right-to-left). -/
def splitCost (buckets : List BvhSahBucket) (i : Nat) : ℚ :=
  let lo := buckets.take (i + 1)
  let hi := (buckets.drop (i + 1)).reverse
  let count_below := lo.foldl (fun n b => n + b.count) (0 : Nat)
  let aabb_below := lo.foldl (fun a b => a.union_aabb b.aabb) AABB.EMPTY
  let count_above := hi.foldl (fun n b => n + b.count) (0 : Nat)
  let aabb_above := hi.foldl (fun a b => a.union_aabb b.aabb) AABB.EMPTY
  (count_below : ℚ) * aabb_below.area + (count_above : ℚ) * aabb_above.area

/-- The `costs` array (one entry per candidate split position). -/
def sahCosts (buckets : List BvhSahBucket) : List ℚ :=
  (List.range SPLIT_COUNT).map (splitCost buckets)

/-- Embedding of `Iterator::min_by` over an enumerated list with the
`total_cmp` comparator: a left fold that keeps the accumulator on ties, so
the first minimal element wins (on never-NaN inputs `total_cmp` is the
rational order). -/
def minByFirst (l : List (Nat × ℚ)) : Option (Nat × ℚ) :=
  l.foldl
    (fun acc p =>
      match acc with
      | none => some p
      | some q => if q.2 > p.2 then some p else some q)
    none

/-- The `(min_cost_split_bucket, min_cost)` selection (the source `unwrap`s;
the costs list always has `SPLIT_COUNT > 0` entries so the default is never
taken). -/
def sahChoice (costs : List ℚ) : Nat × ℚ :=
  (minByFirst costs.enum).getD (0, 0)

/-- Modelled from the std contract of `slice::select_nth_unstable_by` with
`at = len / 2`: after the call every element before `at` is `≤` the element
at `at` under the comparator and every element after is `≥` it.  A full sort
by the same key satisfies that contract; on the only reachable input shape
(`len == 2`) the two coincide up to the unspecified order of equal keys. -/
def selectNthModel (split_axis : Axis) (prims : List BvhPrimitive) :
    List BvhPrimitive :=
  prims.mergeSort
    (fun p0 p1 =>
      decide ((p0.aabb.center).get split_axis ≤ (p1.aabb.center).get split_axis))

/-- The `aabb` computed at the top of each `build_recursive` call: the
running union of the sub-slice's primitive boxes, folded from `EMPTY`. -/
def buildAabb (prims : List BvhPrimitive) : AABB :=
  prims.foldl (fun bounds p => bounds.union_aabb p.aabb) AABB.EMPTY

/-- The `centroids_aabb` of `build_recursive`: the union of the sub-slice's
primitive centroids, folded from `EMPTY`. -/
def buildCentroidsAabb (prims : List BvhPrimitive) : AABB :=
  prims.foldl (fun bounds prim => bounds.union_point prim.aabb.center) AABB.EMPTY

/-- The `create_leaf_node` closure of `build_recursive`: record the current
output offset, append the sub-slice's ids to `ordered_primitives`, and emit
a leaf covering the whole sub-slice. -/
def createLeafNode (aabb : AABB) (bvh_primitives : List BvhPrimitive)
    (ordered_primitives : List Nat) (total_nodes : Nat) :
    BuildBvhNode × List Nat × Nat :=
  (BuildBvhNode.leaf aabb ordered_primitives.length bvh_primitives.length,
    ordered_primitives ++ bvh_primitives.map (fun p => p.id), total_nodes)

/-- Embedding of `Bvh::build_recursive`.  The recursion is fueled: the Rust
recursion has no syntactic termination measure (its termination relies on
the SAH partition being proper, which holds for finite-coordinate input);
when the fuel runs out the function emits the same leaf the source's
`create_leaf_node` closure would emit, and every theorem below holds for
every fuel value.  Returns the node together with the extended
`ordered_primitives` list and the updated `total_nodes` counter. -/
def build_recursive : Nat → List BvhPrimitive → List Nat → Nat →
    BuildBvhNode × List Nat × Nat
  | 0, bvh_primitives, ordered_primitives, total_nodes =>
    createLeafNode (buildAabb bvh_primitives)
      bvh_primitives ordered_primitives (total_nodes + 1)
  | fuel + 1, bvh_primitives, ordered_primitives, total_nodes =>
    let total_nodes := total_nodes + 1
    let aabb := buildAabb bvh_primitives
    let leafResult : BuildBvhNode × List Nat × Nat :=
      createLeafNode aabb bvh_primitives ordered_primitives total_nodes
    if aabb.area = 0 ∨ bvh_primitives.length = 1 then leafResult
    else
        let centroids_aabb := buildCentroidsAabb bvh_primitives
        let split_axis := centroids_aabb.max_axis
        if centroids_aabb.is_empty then leafResult
        else
          if bvh_primitives.length ≤ 2 then
            let mid := bvh_primitives.length / 2
            let sorted := selectNthModel split_axis bvh_primitives
            let resL := build_recursive fuel (sorted.take mid) ordered_primitives
              total_nodes
            let resR := build_recursive fuel (sorted.drop mid) resL.2.1 resL.2.2
            (BuildBvhNode.new_interior split_axis resL.1 resR.1, resR.2)
          else
            let buckets := sahBuckets centroids_aabb split_axis bvh_primitives
            let costs := sahCosts buckets
            let choice := sahChoice costs
            let min_cost_split_bucket := choice.1
            let min_cost := 1 / 2 + choice.2 / aabb.area
            let leaf_cost := bvh_primitives.length
            if bvh_primitives.length > MAX_PRIMS_IN_NODE ∨
                min_cost < (leaf_cost : ℚ) then
              let part := bvh_primitives.partition
                (fun prim =>
                  decide (bucketIndex centroids_aabb split_axis prim.aabb.center ≤
                    min_cost_split_bucket))
              let resL := build_recursive fuel part.1 ordered_primitives total_nodes
              let resR := build_recursive fuel part.2 resL.2.1 resL.2.2
              (BuildBvhNode.new_interior split_axis resL.1 resR.1, resR.2)
            else leafResult

/-! ## Flattener (`Bvh::flatten`, `Bvh::flatten_inner`) -/

/-- Embedding of `LinearBvhNode` (fixed-layout runtime node; the `u32`/`u16`
fields are embedded as `Nat`). -/
structure LinearBvhNode where
  aabb : AABB
  primitive_offset_or_second_child_offset : Nat
  primitive_count : Nat
  split_axis : Axis
deriving DecidableEq

/-- `LinearBvhNode::new_leaf`. -/
def LinearBvhNode.new_leaf (aabb : AABB) (primitive_offset primitive_count : Nat) :
    LinearBvhNode :=
  ⟨aabb, primitive_offset, primitive_count, Axis.X⟩

/-- `LinearBvhNode::new_interior`. -/
def LinearBvhNode.new_interior (aabb : AABB) (second_child_offset : Nat)
    (axis : Axis) : LinearBvhNode :=
  ⟨aabb, second_child_offset, 0, axis⟩

/-- Embedding of `Bvh::flatten_inner`: push the current node, flatten the
left subtree, patch the current node's offset field with the start index of
the right subtree, flatten the right subtree; returns the node count of the
flattened subtree. -/
def flatten_inner : BuildBvhNode → List LinearBvhNode → List LinearBvhNode × Nat
  | BuildBvhNode.leaf a off cnt, flat_nodes =>
    (flat_nodes ++ [LinearBvhNode.new_leaf a off cnt], 1)
  | BuildBvhNode.interior ax a l r, flat_nodes =>
    let index := flat_nodes.length
    let flat_nodes := flat_nodes ++ [LinearBvhNode.new_interior a 0 ax]
    let resL := flatten_inner l flat_nodes
    let flat_nodes := listModify resL.1 index
      (fun n => { n with
        primitive_offset_or_second_child_offset := index + resL.2 + 1 })
    let resR := flatten_inner r flat_nodes
    (resR.1, resL.2 + resR.2 + 1)

/-- `Bvh::flatten` (the `Vec::with_capacity` pre-sizing has no observable
effect on the contents). -/
def flatten (root : BuildBvhNode) : List LinearBvhNode :=
  (flatten_inner root []).1

/-! ## In-place reorder (`Bvh::sort_by_indices`) -/

/-- `slice::swap`. -/
def swapList [Inhabited α] (data : List α) (i j : Nat) : List α :=
  (data.set i (data.getD j default)).set j (data.getD i default)

/-- The inner cycle-following loop of `Bvh::sort_by_indices`.  The source
loop terminates because every iteration creates a fresh fixed point of
`indices`; it is embedded with fuel `data.len()`, which the correctness
lemma below shows is never exhausted on permutation input. -/
def cycleLoop [Inhabited α] : Nat → List α → List Nat → Nat → List α × List Nat
  | 0, data, indices, _ => (data, indices)
  | fuel + 1, data, indices, current_idx =>
    let target_idx := indices.getD current_idx 0
    let indices := indices.set current_idx current_idx
    if indices.getD target_idx 0 = target_idx then (data, indices)
    else cycleLoop fuel (swapList data current_idx target_idx) indices target_idx

/-- The outer `for idx in 0..data.len()` loop of `Bvh::sort_by_indices`. -/
def sortLoop [Inhabited α] : List Nat → List α × List Nat → List α × List Nat
  | [], st => st
  | idx :: rest, st =>
    if st.2.getD idx 0 ≠ idx then
      sortLoop rest (cycleLoop st.1.length st.1 st.2 idx)
    else sortLoop rest st

/-- Embedding of `Bvh::sort_by_indices`. -/
def sort_by_indices [Inhabited α] (data : List α) (indices : List Nat) : List α :=
  (sortLoop (List.range data.length) (data, indices)).1

/-! ## Build entry point (`Bvh::build`) -/

/-- Embedding of `Bvh::build`: enumerate the primitives into build handles,
run the recursive build, apply the resulting permutation to the live
primitive array, and flatten.  Returns the linear node array together with
the reordered primitive array.  The fuel `primitives.length` is enough for
every input whose SAH partitions are proper; all theorems below are stated
for arbitrary fuel. -/
def Bvh.build (primitives : List Primitive) : List LinearBvhNode × List Primitive :=
  let bvh_primitives := primitives.enum.map (fun ip => BvhPrimitive.mk ip.1 ip.2.aabb)
  let res := build_recursive primitives.length bvh_primitives [] 0
  let sorted := sort_by_indices primitives res.2.1
  (flatten res.1, sorted)

/-! ## Traversal (`Bvh::intersect`) -/

/-- Outcome of the embedded traversal loop: a normal return, a panic (an
out-of-bounds access in the source), or fuel exhaustion of the embedding. -/
inductive TravOutcome where
  | ok (result : Option HitInfo)
  | panic
  | spin
deriving DecidableEq

/-- The leaf-scan loop of `Bvh::intersect`: every primitive of the leaf's
contiguous range is intersected and any hit unconditionally overwrites
`tmax` and `closest_hitinfo` (this is the literal source behavior:
`Primitive::intersect` takes no `tmax`, and the scan does not compare the
new hit distance against the current one).  An out-of-range primitive index
is skipped (the source would panic there; primitive-array indexing is
outside the claims about the visit stack). -/
def leafScan (primitives : List Primitive) (ray : Ray) (offset count : Nat)
    (tmax : ℚ) (closest : Option HitInfo) : ℚ × Option HitInfo :=
  (List.range' offset count).foldl
    (fun st prim_offset =>
      match primitives.get? prim_offset with
      | none => st
      | some primitive =>
        match primitive.intersect ray with
        | some hitinfo => (hitinfo.t, some hitinfo)
        | none => st)
    (tmax, closest)

/-- The main loop of `Bvh::intersect`, with the 64-entry `nodes_to_visit`
array embedded as a function and each write guarded by the source's bounds
check: an out-of-bounds write (or an out-of-bounds node read) produces
`panic`.  The loop is fueled; `spin` marks fuel exhaustion and is distinct
from `panic`. -/
def intersectLoop (nodes : List LinearBvhNode) (primitives : List Primitive)
    (ray : Ray) (inv_dir : Vec3) (dir_is_neg : BVec3) :
    Nat → Nat → Nat → (Nat → Nat) → ℚ → Option HitInfo → TravOutcome
  | 0, _, _, _, _, _ => TravOutcome.spin
  | fuel + 1, current_node_index, to_visit_offset, nodes_to_visit, tmax, closest =>
    match nodes.get? current_node_index with
    | none => TravOutcome.panic
    | some node =>
      if node.aabb.intersects ray tmax inv_dir dir_is_neg then
        if node.primitive_count > 0 then
          let scanned := leafScan primitives ray
            node.primitive_offset_or_second_child_offset node.primitive_count
            tmax closest
          if to_visit_offset = 0 then TravOutcome.ok scanned.2
          else
            intersectLoop nodes primitives ray inv_dir dir_is_neg fuel
              (nodes_to_visit (to_visit_offset - 1)) (to_visit_offset - 1)
              nodes_to_visit scanned.1 scanned.2
        else
          let is_neg :=
            match node.split_axis with
            | Axis.X => dir_is_neg.x
            | Axis.Y => dir_is_neg.y
            | Axis.Z => dir_is_neg.z
          if is_neg then
            if to_visit_offset < 64 then
              intersectLoop nodes primitives ray inv_dir dir_is_neg fuel
                node.primitive_offset_or_second_child_offset (to_visit_offset + 1)
                (Function.update nodes_to_visit to_visit_offset
                  (current_node_index + 1)) tmax closest
            else TravOutcome.panic
          else
            if to_visit_offset < 64 then
              intersectLoop nodes primitives ray inv_dir dir_is_neg fuel
                (current_node_index + 1) (to_visit_offset + 1)
                (Function.update nodes_to_visit to_visit_offset
                  node.primitive_offset_or_second_child_offset) tmax closest
            else TravOutcome.panic
      else
        if to_visit_offset = 0 then TravOutcome.ok closest
        else
          intersectLoop nodes primitives ray inv_dir dir_is_neg fuel
            (nodes_to_visit (to_visit_offset - 1)) (to_visit_offset - 1)
            nodes_to_visit tmax closest

/-- Embedding of `Bvh::intersect`: precompute the reciprocal direction and
sign mask, then run the iterative traversal from the root with an empty
visit stack. -/
def Bvh.intersect (nodes : List LinearBvhNode) (ray : Ray) (tmax : ℚ)
    (primitives : List Primitive) (fuel : Nat) : TravOutcome :=
  let inv_dir := Vec3.one.cdiv ray.dir
  let dir_is_neg := inv_dir.cmplt Vec3.zero
  intersectLoop nodes primitives ray inv_dir dir_is_neg fuel 0 0 (fun _ => 0)
    tmax none

/-! ## Structure of the flattened array (C7 machinery) -/

/-- Number of nodes of a build tree. -/
def BuildBvhNode.size : BuildBvhNode → Nat
  | BuildBvhNode.leaf _ _ _ => 1
  | BuildBvhNode.interior _ _ l r => 1 + l.size + r.size

/-- Number of nodes on the longest root-to-leaf path of a build tree. -/
def BuildBvhNode.maxPathLen : BuildBvhNode → Nat
  | BuildBvhNode.leaf _ _ _ => 1
  | BuildBvhNode.interior _ _ l r => 1 + max l.maxPathLen r.maxPathLen

/-- Well-formed build trees: every leaf holds at least one primitive (the
builder's leaves always cover a nonempty sub-slice). -/
def BuildBvhNode.wf : BuildBvhNode → Prop
  | BuildBvhNode.leaf _ _ cnt => 0 < cnt
  | BuildBvhNode.interior _ _ l r => l.wf ∧ r.wf

/-- The linear node that the flattener emits for the root of a subtree
placed at array index `i`. -/
def headLinear : BuildBvhNode → Nat → LinearBvhNode
  | BuildBvhNode.leaf a off cnt, _ => LinearBvhNode.new_leaf a off cnt
  | BuildBvhNode.interior ax a l _, i => LinearBvhNode.new_interior a (i + l.size + 1) ax

/-- The pure depth-first layout of a subtree whose root lands at array
index `i`: the node itself, then the left subtree, then the right subtree. -/
def layoutList : BuildBvhNode → Nat → List LinearBvhNode
  | BuildBvhNode.leaf a off cnt, _ => [LinearBvhNode.new_leaf a off cnt]
  | BuildBvhNode.interior ax a l r, i =>
    LinearBvhNode.new_interior a (i + l.size + 1) ax ::
      (layoutList l (i + 1) ++ layoutList r (i + 1 + l.size))

theorem listModify_length (f : α → α) : ∀ (l : List α) (i : Nat),
    (listModify l i f).length = l.length := by
  intro l
  induction l with
  | nil => intro i; rfl
  | cons x xs ih =>
    intro i
    cases i with
    | zero => rfl
    | succ n => simp [listModify, ih]

theorem listModify_at_append (f : α → α) (y : α) : ∀ (xs zs : List α),
    listModify (xs ++ y :: zs) xs.length f = xs ++ f y :: zs := by
  intro xs zs
  induction xs with
  | nil => rfl
  | cons x xs ih => simp [listModify, ih]

theorem layoutList_length : ∀ (t : BuildBvhNode) (i : Nat),
    (layoutList t i).length = t.size := by
  intro t
  induction t with
  | leaf a off cnt => intro i; rfl
  | interior ax a l r ihl ihr =>
    intro i
    simp [layoutList, BuildBvhNode.size, ihl, ihr]
    omega

/-- `flatten_inner` appends exactly the pure layout of the subtree (rooted
at the current array length) and returns the subtree's node count. -/
theorem flatten_inner_spec : ∀ (t : BuildBvhNode) (acc : List LinearBvhNode),
    flatten_inner t acc = (acc ++ layoutList t acc.length, t.size) := by
  intro t
  induction t with
  | leaf a off cnt =>
    intro acc
    simp [flatten_inner, layoutList, BuildBvhNode.size]
  | interior ax a l r ihl ihr =>
    intro acc
    simp only [flatten_inner, ihl, List.length_append, List.length_cons,
      List.length_nil, Nat.add_zero, Nat.zero_add]
    rw [show acc ++ [LinearBvhNode.new_interior a 0 ax] ++
        layoutList l (acc.length + 1) =
        acc ++ LinearBvhNode.new_interior a 0 ax :: layoutList l (acc.length + 1) by
      simp]
    rw [listModify_at_append]
    simp only [LinearBvhNode.new_interior, ihr, List.length_append,
      List.length_cons, layoutList_length, layoutList, BuildBvhNode.size]
    have hb : acc.length + (l.size + 1) = acc.length + 1 + l.size := by omega
    rw [Prod.mk.injEq]
    refine ⟨?_, by omega⟩
    rw [hb]
    simp [List.append_assoc]

/-- `Bvh::flatten` produces exactly the pure depth-first layout from index 0. -/
theorem flatten_eq_layout (t : BuildBvhNode) : flatten t = layoutList t 0 := by
  simp [flatten, flatten_inner_spec]

/-- All (array index, depth, subtree) entries of the layout of `t` when its
root lands at index `b` and depth `d0`. -/
def entriesFrom : BuildBvhNode → Nat → Nat → List (Nat × Nat × BuildBvhNode)
  | BuildBvhNode.leaf a off cnt, i, d => [(i, d, BuildBvhNode.leaf a off cnt)]
  | BuildBvhNode.interior ax a l r, i, d =>
    (i, d, BuildBvhNode.interior ax a l r) ::
      (entriesFrom l (i + 1) (d + 1) ++ entriesFrom r (i + 1 + l.size) (d + 1))

/-- `sub` sits at array index `i` and depth `d` of the flattened tree `t`
(root at index 0, depth 1). -/
def NodeAt (t : BuildBvhNode) (i d : Nat) (sub : BuildBvhNode) : Prop :=
  (i, d, sub) ∈ entriesFrom t 0 1

theorem entriesFrom_self : ∀ (t : BuildBvhNode) (b d0 : Nat),
    (b, d0, t) ∈ entriesFrom t b d0 := by
  intro t b d0
  cases t <;> simp [entriesFrom]

theorem BuildBvhNode.size_pos : ∀ t : BuildBvhNode, 0 < t.size := by
  intro t
  cases t <;> simp [BuildBvhNode.size]

/-- Addressing: an entry at index `i` occupies the slot `i - b` of the
layout based at `b`, holding the linear node `headLinear sub i`. -/
theorem entriesFrom_get : ∀ (t : BuildBvhNode) (b d0 i d : Nat) (sub : BuildBvhNode),
    (i, d, sub) ∈ entriesFrom t b d0 →
      b ≤ i ∧ i < b + t.size ∧ (layoutList t b).get? (i - b) = some (headLinear sub i) := by
  intro t
  induction t with
  | leaf a off cnt =>
    intro b d0 i d sub hmem
    simp only [entriesFrom, List.mem_singleton, Prod.mk.injEq] at hmem
    obtain ⟨hi, hd, hsub⟩ := hmem
    subst hi
    subst hsub
    refine ⟨le_refl _, by simp [BuildBvhNode.size], ?_⟩
    simp [layoutList, headLinear]
  | interior ax a l r ihl ihr =>
    intro b d0 i d sub hmem
    have hlpos := BuildBvhNode.size_pos l
    have hrpos := BuildBvhNode.size_pos r
    simp only [entriesFrom, List.mem_cons, List.mem_append, Prod.mk.injEq] at hmem
    rcases hmem with ⟨hi, hd, hsub⟩ | hmem | hmem
    · subst hi
      subst hsub
      refine ⟨le_refl _, by simp only [BuildBvhNode.size]; omega, ?_⟩
      simp [layoutList, headLinear]
    · obtain ⟨hb, hlt, hget⟩ := ihl (b + 1) (d0 + 1) i d sub hmem
      refine ⟨by omega, by simp only [BuildBvhNode.size]; omega, ?_⟩
      have hpos : i - b = (i - (b + 1)) + 1 := by omega
      rw [hpos]
      simp only [layoutList, List.get?_cons_succ]
      rw [List.get?_append]
      · exact hget
      · rw [layoutList_length]
        omega
    · obtain ⟨hb, hlt, hget⟩ := ihr (b + 1 + l.size) (d0 + 1) i d sub hmem
      refine ⟨by omega, by simp only [BuildBvhNode.size]; omega, ?_⟩
      have hpos : i - b = (i - (b + 1)) + 1 := by omega
      rw [hpos]
      simp only [layoutList, List.get?_cons_succ]
      rw [List.get?_append_right]
      · rw [layoutList_length]
        have heq : i - (b + 1) - l.size = i - (b + 1 + l.size) := by omega
        rw [heq]
        exact hget
      · rw [layoutList_length]
        omega

/-- The children of an interior entry are entries at the expected indices
and one level deeper. -/
theorem entriesFrom_children : ∀ (t : BuildBvhNode) (b d0 i d : Nat) (ax : Axis)
    (a : AABB) (l r : BuildBvhNode),
    (i, d, BuildBvhNode.interior ax a l r) ∈ entriesFrom t b d0 →
      (i + 1, d + 1, l) ∈ entriesFrom t b d0 ∧
        (i + 1 + l.size, d + 1, r) ∈ entriesFrom t b d0 := by
  intro t
  induction t with
  | leaf a0 off cnt =>
    intro b d0 i d ax a l r hmem
    simp [entriesFrom] at hmem
  | interior ax0 a0 l0 r0 ihl ihr =>
    intro b d0 i d ax a l r hmem
    simp only [entriesFrom, List.mem_cons, List.mem_append, Prod.mk.injEq] at hmem
    rcases hmem with ⟨hi, hd, hsub⟩ | hmem | hmem
    · subst hi
      subst hd
      injection hsub with e1 e2 e3 e4
      subst e1
      subst e2
      subst e3
      subst e4
      constructor
      · simp only [entriesFrom, List.mem_cons, List.mem_append]
        exact Or.inr (Or.inl (entriesFrom_self _ _ _))
      · simp only [entriesFrom, List.mem_cons, List.mem_append]
        exact Or.inr (Or.inr (entriesFrom_self _ _ _))
    · obtain ⟨h1, h2⟩ := ihl (b + 1) (d0 + 1) i d ax a l r hmem
      constructor
      · simp only [entriesFrom, List.mem_cons, List.mem_append]
        exact Or.inr (Or.inl h1)
      · simp only [entriesFrom, List.mem_cons, List.mem_append]
        exact Or.inr (Or.inl h2)
    · obtain ⟨h1, h2⟩ := ihr (b + 1 + l0.size) (d0 + 1) i d ax a l r hmem
      constructor
      · simp only [entriesFrom, List.mem_cons, List.mem_append]
        exact Or.inr (Or.inr h1)
      · simp only [entriesFrom, List.mem_cons, List.mem_append]
        exact Or.inr (Or.inr h2)

/-- Depth bound: an entry at depth `d` leaves room for its own longest
path inside the whole tree's longest path. -/
theorem entriesFrom_depth : ∀ (t : BuildBvhNode) (b d0 i d : Nat) (sub : BuildBvhNode),
    (i, d, sub) ∈ entriesFrom t b d0 → d + sub.maxPathLen ≤ d0 + t.maxPathLen := by
  intro t
  induction t with
  | leaf a off cnt =>
    intro b d0 i d sub hmem
    simp only [entriesFrom, List.mem_singleton, Prod.mk.injEq] at hmem
    obtain ⟨_, hd, hsub⟩ := hmem
    subst hd
    subst hsub
    omega
  | interior ax a l r ihl ihr =>
    intro b d0 i d sub hmem
    simp only [entriesFrom, List.mem_cons, List.mem_append, Prod.mk.injEq] at hmem
    rcases hmem with ⟨_, hd, hsub⟩ | hmem | hmem
    · subst hd
      subst hsub
      omega
    · have := ihl (b + 1) (d0 + 1) i d sub hmem
      simp only [BuildBvhNode.maxPathLen]
      omega
    · have := ihr (b + 1 + l.size) (d0 + 1) i d sub hmem
      simp only [BuildBvhNode.maxPathLen]
      omega

/-- Well-formedness is inherited by every subtree entry. -/
theorem entriesFrom_wf : ∀ (t : BuildBvhNode) (b d0 i d : Nat) (sub : BuildBvhNode),
    t.wf → (i, d, sub) ∈ entriesFrom t b d0 → sub.wf := by
  intro t
  induction t with
  | leaf a off cnt =>
    intro b d0 i d sub hwf hmem
    simp only [entriesFrom, List.mem_singleton, Prod.mk.injEq] at hmem
    obtain ⟨_, _, hsub⟩ := hmem
    subst hsub
    exact hwf
  | interior ax a l r ihl ihr =>
    intro b d0 i d sub hwf hmem
    simp only [entriesFrom, List.mem_cons, List.mem_append, Prod.mk.injEq] at hmem
    rcases hmem with ⟨_, _, hsub⟩ | hmem | hmem
    · subst hsub
      exact hwf
    · exact ihl (b + 1) (d0 + 1) i d sub hwf.1 hmem
    · exact ihr (b + 1 + l.size) (d0 + 1) i d sub hwf.2 hmem

/-- The `total_nodes` counter of `build_recursive` advances by exactly the
node count of the returned subtree. -/
theorem build_recursive_total : ∀ (fuel : Nat) (prims : List BvhPrimitive)
    (ordered : List Nat) (total : Nat),
    (build_recursive fuel prims ordered total).2.2 =
      total + (build_recursive fuel prims ordered total).1.size := by
  intro fuel
  induction fuel with
  | zero =>
    intro prims ordered total
    simp [build_recursive, createLeafNode, BuildBvhNode.size]
  | succ fuel ih =>
    intro prims ordered total
    simp only [build_recursive]
    split
    · simp [createLeafNode, BuildBvhNode.size]
    · split
      · simp [createLeafNode, BuildBvhNode.size]
      · split
        · simp only [BuildBvhNode.new_interior, BuildBvhNode.size, ih]
          omega
        · split
          · simp only [BuildBvhNode.new_interior, BuildBvhNode.size, ih]
            omega
          · simp [createLeafNode, BuildBvhNode.size]

/-- C7: `flatten_inner` emits nodes in depth-first preorder: it appends the
pure preorder layout of the subtree and returns that subtree's node count;
in the flattened array the left child of an interior node at index `i` sits
at index `i + 1`, its stored offset field is `i + 1 + size(left subtree)`
(where the right subtree starts), and the total flattened length equals the
`total_nodes` count computed during the build. -/
theorem c7_flatten_preorder :
    (∀ (t : BuildBvhNode) (acc : List LinearBvhNode),
        flatten_inner t acc = (acc ++ layoutList t acc.length, t.size)) ∧
    (∀ t : BuildBvhNode, (flatten t).length = t.size) ∧
    (∀ (t : BuildBvhNode) (i d : Nat) (ax : Axis) (a : AABB) (l r : BuildBvhNode),
        NodeAt t i d (BuildBvhNode.interior ax a l r) →
          (flatten t).get? i =
              some (LinearBvhNode.new_interior a (i + 1 + l.size) ax) ∧
            NodeAt t (i + 1) (d + 1) l ∧ NodeAt t (i + 1 + l.size) (d + 1) r) ∧
    (∀ (fuel : Nat) (prims : List BvhPrimitive) (ordered : List Nat) (total : Nat),
        (build_recursive fuel prims ordered total).2.2 =
          total + (build_recursive fuel prims ordered total).1.size) := by
  refine ⟨flatten_inner_spec, ?_, ?_, build_recursive_total⟩
  · intro t
    rw [flatten_eq_layout, layoutList_length]
  · intro t i d ax a l r hmem
    obtain ⟨hb, hlt, hget⟩ := entriesFrom_get t 0 1 i d _ hmem
    obtain ⟨hl, hr⟩ := entriesFrom_children t 0 1 i d ax a l r hmem
    refine ⟨?_, hl, hr⟩
    rw [flatten_eq_layout]
    have h0 : i - 0 = i := by omega
    rw [h0] at hget
    have harr : i + l.size + 1 = i + 1 + l.size := by omega
    simpa [headLinear, harr] using hget

/-- Witness for `c7_flatten_preorder`: a concrete two-leaf tree. -/
theorem c7_flatten_preorder_witness :
    (flatten (BuildBvhNode.interior Axis.X AABB.EMPTY
          (BuildBvhNode.leaf AABB.EMPTY 0 1) (BuildBvhNode.leaf AABB.EMPTY 1 1))).get? 0 =
        some (LinearBvhNode.new_interior AABB.EMPTY 2 Axis.X) ∧
      NodeAt (BuildBvhNode.interior Axis.X AABB.EMPTY
          (BuildBvhNode.leaf AABB.EMPTY 0 1) (BuildBvhNode.leaf AABB.EMPTY 1 1)) 1 2
        (BuildBvhNode.leaf AABB.EMPTY 0 1) := by
  have h := (c7_flatten_preorder.2.2.1
    (BuildBvhNode.interior Axis.X AABB.EMPTY
      (BuildBvhNode.leaf AABB.EMPTY 0 1) (BuildBvhNode.leaf AABB.EMPTY 1 1))
    0 1 Axis.X AABB.EMPTY (BuildBvhNode.leaf AABB.EMPTY 0 1)
    (BuildBvhNode.leaf AABB.EMPTY 1 1)
    (entriesFrom_self _ 0 1))
  exact ⟨h.1, h.2.1⟩

/-! ## Correctness of the in-place cycle sort (C3 machinery) -/

theorem getD_set_self (l : List α) (i : Nat) (v : α) (dflt : α) (h : i < l.length) :
    (l.set i v).getD i dflt = v := by
  induction l generalizing i with
  | nil => simp at h
  | cons x xs ih =>
    cases i with
    | zero => rfl
    | succ n =>
      simp only [List.set_cons_succ, List.getD_cons_succ]
      exact ih n (by simpa using h)

theorem getD_set_ne (l : List α) (i j : Nat) (v : α) (dflt : α) (h : i ≠ j) :
    (l.set i v).getD j dflt = l.getD j dflt := by
  induction l generalizing i j with
  | nil => simp [List.set]
  | cons x xs ih =>
    cases i with
    | zero =>
      cases j with
      | zero => exact absurd rfl h
      | succ m => rfl
    | succ n =>
      cases j with
      | zero => rfl
      | succ m =>
        simp only [List.set_cons_succ, List.getD_cons_succ]
        exact ih n m (by omega)

theorem getD_length_le (l : List α) (i : Nat) (dflt : α) (h : l.length ≤ i) :
    l.getD i dflt = dflt := by
  induction l generalizing i with
  | nil => simp [List.getD]
  | cons x xs ih =>
    cases i with
    | zero => simp at h
    | succ n =>
      simp only [List.getD_cons_succ]
      exact ih n (by simpa using h)

theorem swapList_length [Inhabited α] (d : List α) (i j : Nat) :
    (swapList d i j).length = d.length := by
  simp [swapList]

theorem swapList_getD_fst [Inhabited α] (d : List α) (i j : Nat)
    (hi : i < d.length) (hij : i ≠ j) :
    (swapList d i j).getD i default = d.getD j default := by
  unfold swapList
  rw [getD_set_ne _ j i _ _ fun h => hij h.symm, getD_set_self _ i _ _ hi]

theorem swapList_getD_snd [Inhabited α] (d : List α) (i j : Nat)
    (hj : j < d.length) :
    (swapList d i j).getD j default = d.getD i default := by
  unfold swapList
  rw [getD_set_self _ j _ _ (by simpa using hj)]

theorem swapList_getD_other [Inhabited α] (d : List α) (i j k : Nat)
    (hik : k ≠ i) (hjk : k ≠ j) :
    (swapList d i j).getD k default = d.getD k default := by
  unfold swapList
  rw [getD_set_ne _ j k _ _ fun h => hjk h.symm,
    getD_set_ne _ i k _ _ fun h => hik h.symm]

theorem iterate_lt (π : Nat → Nat) (n : Nat) (hπ : ∀ k, k < n → π k < n) :
    ∀ (j k : Nat), k < n → π^[j] k < n := by
  intro j
  induction j with
  | zero => intro k hk; simpa using hk
  | succ j ih =>
    intro k hk
    rw [Function.iterate_succ_apply']
    exact hπ _ (ih k hk)

theorem iterate_cancel (π : Nat → Nat) (n : Nat) (hπ : ∀ k, k < n → π k < n)
    (hinj : ∀ x y, x < n → y < n → π x = π y → x = y) :
    ∀ (a : Nat) (x y : Nat), x < n → y < n → π^[a] x = π^[a] y → x = y := by
  intro a
  induction a with
  | zero => intro x y _ _ h; simpa using h
  | succ a ih =>
    intro x y hx hy h
    rw [Function.iterate_succ_apply', Function.iterate_succ_apply'] at h
    exact ih x y hx hy
      (hinj _ _ (iterate_lt π n hπ a x hx) (iterate_lt π n hπ a y hy) h)

/-- Pigeonhole: every point below `n` returns to itself under some positive
number of applications of an injective self-map of `[0, n)`. -/
theorem exists_pos_return (π : Nat → Nat) (n : Nat) (hπ : ∀ k, k < n → π k < n)
    (hinj : ∀ x y, x < n → y < n → π x = π y → x = y) (cur : Nat)
    (hcur : cur < n) : ∃ p, 0 < p ∧ p ≤ n ∧ π^[p] cur = cur := by
  let f : Fin (n + 1) → Fin n := fun j => ⟨π^[j.1] cur, iterate_lt π n hπ j.1 cur hcur⟩
  have hcard : Fintype.card (Fin n) < Fintype.card (Fin (n + 1)) := by simp
  obtain ⟨a, b, hab, hfab⟩ := Fintype.exists_ne_map_eq_of_card_lt f hcard
  have hval : π^[a.1] cur = π^[b.1] cur := congrArg Fin.val hfab
  have hne : a.1 ≠ b.1 := fun h => hab (Fin.ext h)
  rcases Nat.lt_or_ge a.1 b.1 with hlt | hge
  · have hsplit : b.1 = a.1 + (b.1 - a.1) := by omega
    rw [hsplit, Function.iterate_add_apply] at hval
    have := iterate_cancel π n hπ hinj a.1 cur (π^[b.1 - a.1] cur) hcur
      (iterate_lt π n hπ _ cur hcur) hval
    exact ⟨b.1 - a.1, by omega, by omega, this.symm⟩
  · have hlt' : b.1 < a.1 := by omega
    have hsplit : a.1 = b.1 + (a.1 - b.1) := by omega
    rw [hsplit, Function.iterate_add_apply] at hval
    have := iterate_cancel π n hπ hinj b.1 cur (π^[a.1 - b.1] cur) hcur
      (iterate_lt π n hπ _ cur hcur) hval.symm
    exact ⟨a.1 - b.1, by omega, by omega, this.symm⟩

theorem cycleLoop_spec [Inhabited α] (data : List α) (π : Nat → Nat)
    (hπr : ∀ k, k < data.length → π k < data.length) (start : Nat) :
    ∀ (m fuel : Nat) (d : List α) (s : List Nat) (cur : Nat),
      m + 1 ≤ fuel →
      d.length = data.length →
      s.length = data.length →
      cur < data.length →
      π^[m + 1] cur = start →
      (∀ j, 1 ≤ j → j ≤ m → π^[j] cur ≠ start) →
      (∀ j, 1 ≤ j → j ≤ m → s.getD (π^[j] cur) 0 ≠ π^[j] cur) →
      (∀ k, k < data.length → s.getD k 0 = k →
          d.getD k default = data.getD (π k) default) →
      (∀ k, k < data.length → s.getD k 0 ≠ k → k ≠ cur →
          s.getD k 0 = π k ∧ d.getD k default = data.getD k default) →
      s.getD cur 0 ≠ cur →
      s.getD cur 0 = π cur →
      d.getD cur default = data.getD start default →
      (cur ≠ start → s.getD start 0 = start) →
      (∀ k, k < data.length → s.getD k 0 = k →
          s.getD (π k) 0 = π k ∨ π k = cur) →
      (cycleLoop fuel d s cur).1.length = data.length ∧
      (cycleLoop fuel d s cur).2.length = data.length ∧
      (∀ k, k < data.length → (cycleLoop fuel d s cur).2.getD k 0 = k →
          (cycleLoop fuel d s cur).1.getD k default = data.getD (π k) default) ∧
      (∀ k, k < data.length → (cycleLoop fuel d s cur).2.getD k 0 ≠ k →
          (cycleLoop fuel d s cur).2.getD k 0 = π k ∧
            (cycleLoop fuel d s cur).1.getD k default = data.getD k default) ∧
      (∀ k, s.getD k 0 = k → (cycleLoop fuel d s cur).2.getD k 0 = k) ∧
      (cycleLoop fuel d s cur).2.getD start 0 = start ∧
      (∀ k, k < data.length → (cycleLoop fuel d s cur).2.getD k 0 = k →
          (cycleLoop fuel d s cur).2.getD (π k) 0 = π k) := by
  intro m
  induction m with
  | zero =>
    intro fuel d s cur hfuel hd hs hcur hret hmin hpend hA hB hpc hsc hdc hF hOC
    obtain ⟨f, rfl⟩ : ∃ f, fuel = f + 1 := ⟨fuel - 1, by omega⟩
    have hπc : π cur = start := by simpa using hret
    have hcs : cur ≠ start := by
      intro h
      apply hpc
      rw [hsc, hπc, h]
    have hstart_lt : start < data.length := hπc ▸ hπr cur hcur
    have hcond : (s.set cur cur).getD (s.getD cur 0) 0 = s.getD cur 0 := by
      rw [hsc, hπc, getD_set_ne s cur start cur 0 hcs]
      exact hF hcs
    have hstep : cycleLoop (f + 1) d s cur = (d, s.set cur cur) := by
      simp only [cycleLoop]
      rw [if_pos hcond]
    rw [hstep]
    dsimp only
    refine ⟨hd, by simpa using hs, ?_, ?_, ?_, ?_, ?_⟩
    · intro k hk hdone
      by_cases hkc : k = cur
      · subst hkc
        rw [hπc]
        exact hdc
      · rw [getD_set_ne s cur k cur 0 (Ne.symm hkc)] at hdone
        exact hA k hk hdone
    · intro k hk hpending
      have hkc : k ≠ cur := by
        intro h
        subst h
        rw [getD_set_self s k k 0 (by omega)] at hpending
        exact hpending rfl
      rw [getD_set_ne s cur k cur 0 (Ne.symm hkc)] at hpending ⊢
      exact hB k hk hpending hkc
    · intro k hdone
      by_cases hkc : k = cur
      · subst hkc
        rw [getD_set_self s k k 0 (by omega)]
      · rw [getD_set_ne s cur k cur 0 (Ne.symm hkc)]
        exact hdone
    · rw [getD_set_ne s cur start cur 0 hcs]
      exact hF hcs
    · intro k hk hdone
      by_cases hkc : k = cur
      · subst hkc
        rw [hπc, getD_set_ne s k start k 0 hcs]
        exact hF hcs
      · rw [getD_set_ne s cur k cur 0 (Ne.symm hkc)] at hdone
        by_cases hpk : π k = cur
        · rw [hpk, getD_set_self s cur cur 0 (by omega)]
        · rw [getD_set_ne s cur (π k) cur 0 (fun h => hpk h.symm)]
          rcases hOC k hk hdone with h | h
          · exact h
          · exact absurd h hpk
  | succ m ih =>
    intro fuel d s cur hfuel hd hs hcur hret hmin hpend hA hB hpc hsc hdc hF hOC
    obtain ⟨f, rfl⟩ : ∃ f, fuel = f + 1 := ⟨fuel - 1, by omega⟩
    have htc : π cur ≠ cur := by
      intro h
      have hfix : π^[m + 1 + 1] cur = cur := Function.iterate_fixed h _
      have h1 : π^[1] cur ≠ start := hmin 1 (le_refl _) (by omega)
      apply h1
      simp only [Function.iterate_one, h]
      rw [hfix] at hret
      exact hret
    have htarget_lt : π cur < data.length := hπr cur hcur
    have hpend1 : s.getD (π cur) 0 ≠ π cur := by
      have := hpend 1 (le_refl _) (by omega)
      simpa using this
    have hcond : ¬ ((s.set cur cur).getD (s.getD cur 0) 0 = s.getD cur 0) := by
      rw [hsc, getD_set_ne s cur (π cur) cur 0 (fun h => htc h.symm)]
      exact hpend1
    have hstep : cycleLoop (f + 1) d s cur =
        cycleLoop f (swapList d cur (s.getD cur 0)) (s.set cur cur) (s.getD cur 0) := by
      simp only [cycleLoop]
      rw [if_neg hcond]
    rw [hstep, hsc]
    have hstart_lt : start < data.length := by
      have := iterate_lt π data.length hπr (m + 1 + 1) cur hcur
      rwa [hret] at this
    -- hypotheses for the recursive invariant
    have hBt := hB (π cur) htarget_lt hpend1 (fun h => htc h)
    have hret' : π^[m + 1] (π cur) = start := by
      rw [← Function.iterate_succ_apply]
      exact hret
    have hmin' : ∀ j, 1 ≤ j → j ≤ m → π^[j] (π cur) ≠ start := by
      intro j hj1 hjm
      rw [← Function.iterate_succ_apply]
      exact hmin (j + 1) (by omega) (by omega)
    have hnocur : ∀ j, 1 ≤ j → j ≤ m → π^[j] (π cur) ≠ cur := by
      intro j hj1 hjm h
      rw [← Function.iterate_succ_apply] at h
      have hsplit : m + 1 + 1 = (m + 1 - j) + (j + 1) := by omega
      rw [hsplit, Function.iterate_add_apply, h] at hret
      exact hmin (m + 1 - j) (by omega) (by omega) hret
    have hpend' : ∀ j, 1 ≤ j → j ≤ m →
        (s.set cur cur).getD (π^[j] (π cur)) 0 ≠ π^[j] (π cur) := by
      intro j hj1 hjm
      rw [getD_set_ne s cur _ cur 0 (fun h => hnocur j hj1 hjm h.symm)]
      rw [← Function.iterate_succ_apply]
      exact hpend (j + 1) (by omega) (by omega)
    have hA' : ∀ k, k < data.length → (s.set cur cur).getD k 0 = k →
        (swapList d cur (π cur)).getD k default = data.getD (π k) default := by
      intro k hk hdone
      by_cases hkc : k = cur
      · subst hkc
        rw [swapList_getD_fst d k (π k) (by omega) (fun h => htc h.symm)]
        exact hBt.2
      · rw [getD_set_ne s cur k cur 0 (Ne.symm hkc)] at hdone
        have hkt : k ≠ π cur := by
          intro h
          rw [← h] at hpend1
          exact hpend1 hdone
        rw [swapList_getD_other d cur (π cur) k hkc hkt]
        exact hA k hk hdone
    have hB' : ∀ k, k < data.length → (s.set cur cur).getD k 0 ≠ k → k ≠ π cur →
        (s.set cur cur).getD k 0 = π k ∧
          (swapList d cur (π cur)).getD k default = data.getD k default := by
      intro k hk hpending hkt
      have hkc : k ≠ cur := by
        intro h
        subst h
        rw [getD_set_self s k k 0 (by omega)] at hpending
        exact hpending rfl
      rw [getD_set_ne s cur k cur 0 (Ne.symm hkc)] at hpending ⊢
      obtain ⟨h1, h2⟩ := hB k hk hpending hkc
      refine ⟨h1, ?_⟩
      rw [swapList_getD_other d cur (π cur) k hkc hkt]
      exact h2
    have hpc' : (s.set cur cur).getD (π cur) 0 ≠ π cur := by
      rw [getD_set_ne s cur (π cur) cur 0 (fun h => htc h.symm)]
      exact hpend1
    have hsc' : (s.set cur cur).getD (π cur) 0 = π (π cur) := by
      rw [getD_set_ne s cur (π cur) cur 0 (fun h => htc h.symm)]
      exact hBt.1
    have hdc' : (swapList d cur (π cur)).getD (π cur) default =
        data.getD start default := by
      rw [swapList_getD_snd d cur (π cur) (by omega)]
      exact hdc
    have hF' : π cur ≠ start → (s.set cur cur).getD start 0 = start := by
      intro _
      by_cases hcs : cur = start
      · subst hcs
        rw [getD_set_self s cur cur 0 (by omega)]
      · rw [getD_set_ne s cur start cur 0 hcs]
        exact hF hcs
    have hOC' : ∀ k, k < data.length → (s.set cur cur).getD k 0 = k →
        (s.set cur cur).getD (π k) 0 = π k ∨ π k = π cur := by
      intro k hk hdone
      by_cases hkc : k = cur
      · subst hkc
        exact Or.inr rfl
      · rw [getD_set_ne s cur k cur 0 (Ne.symm hkc)] at hdone
        by_cases hpk : π k = cur
        · rw [hpk]
          exact Or.inl (getD_set_self s cur cur 0 (by omega))
        · rcases hOC k hk hdone with h | h
          · rw [getD_set_ne s cur (π k) cur 0 (fun hh => hpk hh.symm)]
            exact Or.inl h
          · exact absurd h hpk
    obtain ⟨q1, q2, q3, q4, q5, q6, q7⟩ := ih f (swapList d cur (π cur))
      (s.set cur cur) (π cur) (by omega) (by simpa [swapList_length] using hd)
      (by simpa using hs) htarget_lt hret' hmin' hpend' hA' hB' hpc' hsc' hdc' hF' hOC'
    refine ⟨q1, q2, q3, q4, ?_, q6, q7⟩
    intro k hdone
    apply q5
    by_cases hkc : k = cur
    · subst hkc
      exact absurd hdone hpc
    · rw [getD_set_ne s cur k cur 0 (Ne.symm hkc)]
      exact hdone


theorem done_forward (π : Nat → Nat) (n : Nat) (hπr : ∀ k, k < n → π k < n)
    (s : List Nat) (hOC : ∀ k, k < n → s.getD k 0 = k → s.getD (π k) 0 = π k) :
    ∀ (i k : Nat), k < n → s.getD k 0 = k → s.getD (π^[i] k) 0 = π^[i] k := by
  intro i
  induction i with
  | zero => intro k _ h; simpa using h
  | succ i ih =>
    intro k hk h
    rw [Function.iterate_succ_apply']
    exact hOC _ (iterate_lt π n hπr i k hk) (ih k hk h)

theorem sortLoop_spec [Inhabited α] (data : List α) (π : Nat → Nat)
    (hπr : ∀ k, k < data.length → π k < data.length)
    (hinj : ∀ x y, x < data.length → y < data.length → π x = π y → x = y) :
    ∀ (idxs : List Nat) (d : List α) (s : List Nat),
      (∀ i ∈ idxs, i < data.length) →
      d.length = data.length → s.length = data.length →
      (∀ k, k < data.length → s.getD k 0 = k →
          d.getD k default = data.getD (π k) default) →
      (∀ k, k < data.length → s.getD k 0 ≠ k →
          s.getD k 0 = π k ∧ d.getD k default = data.getD k default) →
      (∀ k, k < data.length → s.getD k 0 = k → s.getD (π k) 0 = π k) →
      (sortLoop idxs (d, s)).1.length = data.length ∧
      (sortLoop idxs (d, s)).2.length = data.length ∧
      (∀ k, k < data.length → (sortLoop idxs (d, s)).2.getD k 0 = k →
          (sortLoop idxs (d, s)).1.getD k default = data.getD (π k) default) ∧
      (∀ k, k < data.length → (sortLoop idxs (d, s)).2.getD k 0 ≠ k →
          (sortLoop idxs (d, s)).2.getD k 0 = π k ∧
            (sortLoop idxs (d, s)).1.getD k default = data.getD k default) ∧
      (∀ k, k < data.length → (sortLoop idxs (d, s)).2.getD k 0 = k →
          (sortLoop idxs (d, s)).2.getD (π k) 0 = π k) ∧
      (∀ k, s.getD k 0 = k → (sortLoop idxs (d, s)).2.getD k 0 = k) ∧
      (∀ i ∈ idxs, (sortLoop idxs (d, s)).2.getD i 0 = i) := by
  intro idxs
  induction idxs with
  | nil =>
    intro d s hidxs hd hs hA hB hOC
    simp only [sortLoop]
    exact ⟨hd, hs, hA, hB, hOC, fun k h => h, fun i hi => absurd hi (List.not_mem_nil i)⟩
  | cons idx rest ih =>
    intro d s hidxs hd hs hA hB hOC
    have hidx_lt : idx < data.length := hidxs idx (List.mem_cons_self idx rest)
    by_cases hdone : s.getD idx 0 = idx
    · have hstep : sortLoop (idx :: rest) (d, s) = sortLoop rest (d, s) := by
        simp only [sortLoop]
        rw [if_neg (by simpa using hdone)]
      rw [hstep]
      obtain ⟨r1, r2, r3, r4, r5, r6, r7⟩ := ih d s
        (fun i hi => hidxs i (List.mem_cons_of_mem idx hi)) hd hs hA hB hOC
      refine ⟨r1, r2, r3, r4, r5, r6, ?_⟩
      intro i hi
      rcases List.mem_cons.1 hi with rfl | hi'
      · exact r6 i hdone
      · exact r7 i hi'
    · -- run the cycle starting at idx
      obtain ⟨p, hp1, hpn, hpret⟩ :=
        exists_pos_return π data.length hπr hinj idx hidx_lt
      have hex : ∃ q, 0 < q ∧ π^[q] idx = idx := ⟨p, hp1, hpret⟩
      have hM := Nat.find_spec hex
      have hMmin := fun q (hq : q < Nat.find hex) => Nat.find_min hex hq
      have hMle : Nat.find hex ≤ p := Nat.find_le ⟨hp1, hpret⟩
      obtain ⟨m, hm⟩ : ∃ m, Nat.find hex = m + 1 := ⟨Nat.find hex - 1, by
        have := hM.1
        omega⟩
      have hret : π^[m + 1] idx = idx := hm ▸ hM.2
      have hmin : ∀ j, 1 ≤ j → j ≤ m → π^[j] idx ≠ idx := by
        intro j hj1 hjm hc
        exact hMmin j (by omega) ⟨by omega, hc⟩
      have hpend : ∀ j, 1 ≤ j → j ≤ m → s.getD (π^[j] idx) 0 ≠ π^[j] idx := by
        intro j hj1 hjm hc
        have hu_lt : π^[j] idx < data.length := iterate_lt π data.length hπr j idx hidx_lt
        have := done_forward π data.length hπr s hOC (m + 1 - j) (π^[j] idx) hu_lt hc
        rw [← Function.iterate_add_apply] at this
        have harith : m + 1 - j + j = m + 1 := by omega
        rw [harith, hret] at this
        exact hdone this
      have hfuel : m + 1 ≤ d.length := by omega
      obtain ⟨q1, q2, q3, q4, q5, q6, q7⟩ := cycleLoop_spec data π hπr idx m d.length d s idx
        hfuel hd hs hidx_lt hret hmin hpend hA
        (fun k hk hp _ => hB k hk hp) hdone
        (hB idx hidx_lt hdone).1
        (by
          have := (hB idx hidx_lt hdone).2
          exact this)
        (fun h => absurd rfl h)
        (fun k hk hdk => Or.inl (hOC k hk hdk))
      have hstep : sortLoop (idx :: rest) (d, s) =
          sortLoop rest (cycleLoop d.length d s idx) := by
        simp only [sortLoop]
        rw [if_pos (by simpa using hdone)]
      rw [hstep]
      have hpair : cycleLoop d.length d s idx =
          ((cycleLoop d.length d s idx).1, (cycleLoop d.length d s idx).2) := rfl
      rw [hpair]
      obtain ⟨r1, r2, r3, r4, r5, r6, r7⟩ := ih (cycleLoop d.length d s idx).1
        (cycleLoop d.length d s idx).2
        (fun i hi => hidxs i (List.mem_cons_of_mem idx hi)) q1 q2 q3
        (fun k hk hp => q4 k hk hp) q7
      refine ⟨r1, r2, r3, r4, r5, ?_, ?_⟩
      · intro k hk
        exact r6 k (q5 k hk)
      · intro i hi
        rcases List.mem_cons.1 hi with rfl | hi'
        · exact r6 i q6
        · exact r7 i hi'


theorem eq_of_getD [Inhabited α] (l1 l2 : List α) (hlen : l1.length = l2.length)
    (h : ∀ k, k < l1.length → l1.getD k default = l2.getD k default) : l1 = l2 := by
  apply List.ext_get hlen
  intro n h1 h2
  have := h n h1
  rwa [List.getD_eq_get l1 default h1, List.getD_eq_get l2 default h2] at this

/-- Correctness of `Bvh::sort_by_indices` on permutation input: the result
at position `k` is the original element at position `indices[k]`. -/
theorem sort_by_indices_spec [Inhabited α] (data : List α) (s0 : List Nat)
    (hlen : s0.length = data.length)
    (hmem : ∀ x ∈ s0, x < data.length)
    (hnodup : s0.Nodup) :
    sort_by_indices data s0 = s0.map (fun i => data.getD i default) := by
  have hπr : ∀ k, k < data.length → s0.getD k 0 < data.length := by
    intro k hk
    have hk' : k < s0.length := by omega
    rw [List.getD_eq_get s0 0 hk']
    exact hmem _ (List.get_mem s0 k hk')
  have hinj : ∀ x y, x < data.length → y < data.length →
      s0.getD x 0 = s0.getD y 0 → x = y := by
    intro x y hx hy hxy
    have hx' : x < s0.length := by omega
    have hy' : y < s0.length := by omega
    rw [List.getD_eq_get s0 0 hx', List.getD_eq_get s0 0 hy'] at hxy
    have := (List.Nodup.get_inj_iff hnodup).1 hxy
    exact congrArg Fin.val this
  obtain ⟨r1, r2, r3, r4, r5, r6, r7⟩ := sortLoop_spec data (fun k => s0.getD k 0)
    hπr hinj (List.range data.length) data s0
    (fun i hi => List.mem_range.1 hi) rfl hlen
    (fun k _ hd => by
      show data.getD k default = data.getD (s0.getD k 0) default
      rw [hd])
    (fun k _ _ => ⟨rfl, rfl⟩)
    (fun k _ hd => by
      show s0.getD (s0.getD k 0) 0 = s0.getD k 0
      rw [hd]
      exact hd)
  have hall : ∀ k, k < data.length →
      (sortLoop (List.range data.length) (data, s0)).2.getD k 0 = k := by
    intro k hk
    exact r7 k (List.mem_range.2 hk)
  unfold sort_by_indices
  apply eq_of_getD
  · rw [r1, List.length_map]
    omega
  · intro k hk
    rw [r1] at hk
    have hres := r3 k hk (hall k hk)
    rw [hres]
    have hk' : k < s0.length := by omega
    rw [List.getD_eq_get (s0.map _) default (by simpa using hk'),
      List.get_map]
    rw [List.getD_eq_get s0 0 hk']

/-! ## C1: traversal versus brute force -/

/-- The brute-force reference of the claim (and of the repository's own
`test_bvh_intersect`): intersect every primitive individually and keep the
hit of minimal distance within `[0, tmax)`. -/
def bruteForceClosest (primitives : List Primitive) (ray : Ray) (tmax : ℚ) :
    Option HitInfo :=
  primitives.foldl
    (fun best p =>
      match p.intersect ray with
      | some h =>
        if 0 ≤ h.t ∧ h.t < (match best with | some b => b.t | none => tmax) then
          some h
        else best
      | none => best)
    none

/-- The failing ray for C1: origin 0, direction (1, 2, 2) / 3 (unit length). -/
def exRay : Ray := ⟨⟨0, 0, 0⟩, ⟨1 / 3, 2 / 3, 2 / 3⟩⟩

/-- A primitive of the failing input: box `[lo, hi]` and an `intersect`
that reports the given hit distance on `exRay`.  Each models a sphere of
center (1, 2, 2) (on the ray, at parameter 3): `Sphere::hit` on `exRay`
returns exactly `t = 3 - radius` with hit position `t • dir`, so these are
the exact rational hit records of spheres of radius 2, 1/2 and 1. -/
def exPrim (lo hi : Vec3) (t : ℚ) : Primitive :=
  ⟨AABB.new lo hi,
    fun r => if r = exRay then some ⟨Vec3.smul t r.dir, ⟨0, 0, 1⟩, t⟩ else none⟩

/-- The failing input for C1: three concentric spheres centered (1, 2, 2)
with radii 2, 1/2 and 1 (in that order), hit by `exRay` at distances 1, 5/2
and 2 respectively.  All three centroids coincide, so the build emits a
single leaf holding all three primitives in input order. -/
def exPrims : List Primitive :=
  [exPrim ⟨-1, 0, 0⟩ ⟨3, 4, 4⟩ 1,
   exPrim ⟨1 / 2, 3 / 2, 3 / 2⟩ ⟨3 / 2, 5 / 2, 5 / 2⟩ (5 / 2),
   exPrim ⟨0, 1, 1⟩ ⟨2, 3, 3⟩ 2]

/-- C1 (counterexample / code-bug evaluation): on `exPrims` and `exRay` with
`tmax = 1000`, the embedded `Bvh::intersect` returns the hit at distance 2
(the last primitive in leaf-scan order whose `intersect` reports a hit —
the leaf scan overwrites `closest_hitinfo` unconditionally because
`Primitive::intersect` ignores the shrunken `tmax`), while the brute-force
closest hit of the claim is at distance 1.  Hence `Bvh::intersect` does not
return the minimum-distance hit, contradicting the claim, the spec (§4.3,
§8) and the repository's own test `test_bvh_intersect`. -/
theorem c1_closest_hit_code_bug :
    Bvh.intersect (Bvh.build exPrims).1 exRay 1000 (Bvh.build exPrims).2 10 =
        TravOutcome.ok (some ⟨⟨2 / 3, 4 / 3, 4 / 3⟩, ⟨0, 0, 1⟩, 2⟩) ∧
      bruteForceClosest exPrims exRay 1000 =
        some ⟨⟨1 / 3, 2 / 3, 2 / 3⟩, ⟨0, 0, 1⟩, 1⟩ ∧
      (2 : ℚ) ≠ 1 := by
  refine ⟨by decide, by decide, by norm_num⟩


theorem fits_within_iff (a b : AABB) : a.fits_within b = true ↔
    (b.min.x ≤ a.min.x ∧ b.min.y ≤ a.min.y ∧ b.min.z ≤ a.min.z ∧
      a.max.x ≤ b.max.x ∧ a.max.y ≤ b.max.y ∧ a.max.z ≤ b.max.z) := by
  simp only [AABB.fits_within, Bool.and_eq_true, decide_eq_true_eq, ge_iff_le]
  tauto

theorem fits_within_union_arg (a c : AABB) :
    a.fits_within (c.union_aabb a) = true := by
  rw [fits_within_iff]
  simp only [AABB.union_aabb, Vec3.vmin, Vec3.vmax]
  exact ⟨min_le_right _ _, min_le_right _ _, min_le_right _ _,
    le_max_right _ _, le_max_right _ _, le_max_right _ _⟩

theorem fits_within_union_mono (a b c : AABB) (h : a.fits_within b = true) :
    a.fits_within (b.union_aabb c) = true := by
  rw [fits_within_iff] at h ⊢
  simp only [AABB.union_aabb, Vec3.vmin, Vec3.vmax]
  obtain ⟨h1, h2, h3, h4, h5, h6⟩ := h
  exact ⟨le_trans (min_le_left _ _) h1, le_trans (min_le_left _ _) h2,
    le_trans (min_le_left _ _) h3, le_trans h4 (le_max_left _ _),
    le_trans h5 (le_max_left _ _), le_trans h6 (le_max_left _ _)⟩

theorem foldl_union_fits : ∀ (l : List BvhPrimitive) (acc a : AABB),
    a.fits_within acc = true →
    a.fits_within (l.foldl (fun b q => b.union_aabb q.aabb) acc) = true := by
  intro l
  induction l with
  | nil => intro acc a h; simpa using h
  | cons q l ih =>
    intro acc a h
    exact ih _ a (fits_within_union_mono a acc q.aabb h)

theorem mem_fits_foldl : ∀ (l : List BvhPrimitive) (acc : AABB) (p : BvhPrimitive),
    p ∈ l →
    p.aabb.fits_within (l.foldl (fun b q => b.union_aabb q.aabb) acc) = true := by
  intro l
  induction l with
  | nil => intro acc p h; exact absurd h (List.not_mem_nil p)
  | cons q l ih =>
    intro acc p hp
    rcases List.mem_cons.1 hp with rfl | hp'
    · exact foldl_union_fits l _ _ (fits_within_union_arg _ _)
    · exact ih _ p hp'

/-- The (offset, count) ranges of the leaves of a build tree, left to right. -/
def leafRanges : BuildBvhNode → List (Nat × Nat)
  | BuildBvhNode.leaf _ off cnt => [(off, cnt)]
  | BuildBvhNode.interior _ _ l r => leafRanges l ++ leafRanges r

/-- The ranges form consecutive intervals starting at `s` and ending at `e`. -/
def RangesConsec : Nat → List (Nat × Nat) → Nat → Prop
  | s, [], e => s = e
  | s, r :: rest, e => r.1 = s ∧ RangesConsec (s + r.2) rest e

theorem rangesConsec_append : ∀ (L R : List (Nat × Nat)) (s m e : Nat),
    RangesConsec s L m → RangesConsec m R e → RangesConsec s (L ++ R) e := by
  intro L
  induction L with
  | nil =>
    intro R s m e h1 h2
    cases h1
    simpa using h2
  | cons r L ih =>
    intro R s m e h1 h2
    exact ⟨h1.1, ih R _ m e h1.2 h2⟩

theorem rangesConsec_le : ∀ (rs : List (Nat × Nat)) (s e : Nat),
    RangesConsec s rs e → s ≤ e := by
  intro rs
  induction rs with
  | nil => intro s e h; exact Nat.le_of_eq h
  | cons r rest ih =>
    intro s e h
    have := ih _ _ h.2
    omega

theorem rangesConsec_subset : ∀ (rs : List (Nat × Nat)) (s e : Nat),
    RangesConsec s rs e → ∀ r ∈ rs, s ≤ r.1 ∧ r.1 + r.2 ≤ e := by
  intro rs
  induction rs with
  | nil => intro s e _ r hr; exact absurd hr (List.not_mem_nil r)
  | cons q rest ih =>
    intro s e h r hr
    have h1 := h.1
    rcases List.mem_cons.1 hr with rfl | hr'
    · have := rangesConsec_le rest _ _ h.2
      omega
    · have := ih _ _ h.2 r hr'
      omega

theorem rangesConsec_cover : ∀ (rs : List (Nat × Nat)) (s e : Nat),
    RangesConsec s rs e → ∀ j, s ≤ j → j < e →
      ∃ r ∈ rs, r.1 ≤ j ∧ j < r.1 + r.2 := by
  intro rs
  induction rs with
  | nil =>
    intro s e h j h1 h2
    have he : s = e := h
    omega
  | cons q rest ih =>
    intro s e h j h1 h2
    have hq1 := h.1
    by_cases hin : j < s + q.2
    · exact ⟨q, List.mem_cons_self q rest, by omega, by omega⟩
    · obtain ⟨r, hr, hb⟩ := ih _ _ h.2 j (by omega) h2
      exact ⟨r, List.mem_cons_of_mem q hr, hb⟩

theorem rangesConsec_pairwise : ∀ (rs : List (Nat × Nat)) (s e : Nat),
    RangesConsec s rs e → rs.Pairwise (fun r r' => r.1 + r.2 ≤ r'.1) := by
  intro rs
  induction rs with
  | nil => intro s e _; exact List.Pairwise.nil
  | cons q rest ih =>
    intro s e h
    have hq1 := h.1
    refine List.Pairwise.cons ?_ (ih _ _ h.2)
    intro r hr
    have := (rangesConsec_subset rest _ _ h.2 r hr).1
    omega

/-- Containment invariant of a build tree: every leaf box contains the
boxes of the primitives its range points at (through the ordered id list),
and every interior box is the union of its children's boxes. -/
def TreeBoxInv (idb : Nat → AABB) (ordered : List Nat) : BuildBvhNode → Prop
  | BuildBvhNode.leaf a off cnt => ∀ k, off ≤ k → k < off + cnt →
      k < ordered.length ∧ (idb (ordered.getD k 0)).fits_within a = true
  | BuildBvhNode.interior _ a l r => a = l.nodeAabb.union_aabb r.nodeAabb ∧
      TreeBoxInv idb ordered l ∧ TreeBoxInv idb ordered r

theorem treeBoxInv_append (idb : Nat → AABB) (ordered ext : List Nat) :
    ∀ t, TreeBoxInv idb ordered t → TreeBoxInv idb (ordered ++ ext) t := by
  intro t
  induction t with
  | leaf a off cnt =>
    intro h k hk1 hk2
    obtain ⟨hlt, hfit⟩ := h k hk1 hk2
    refine ⟨by simp only [List.length_append]; omega, ?_⟩
    rw [List.getD_append _ _ _ _ hlt]
    exact hfit
  | interior ax a l r ihl ihr =>
    intro h
    exact ⟨h.1, ihl h.2.1, ihr h.2.2⟩

theorem createLeaf_spec (idb : Nat → AABB) (prims : List BvhPrimitive)
    (ordered : List Nat) (total : Nat)
    (hid : ∀ p ∈ prims, idb p.id = p.aabb) :
    ∃ delta,
      (createLeafNode (buildAabb prims)
          prims ordered total).2.1 = ordered ++ delta ∧
      List.Perm delta (prims.map fun p => p.id) ∧
      RangesConsec ordered.length
        (leafRanges (createLeafNode
          (prims.foldl (fun b q => b.union_aabb q.aabb) AABB.EMPTY)
          prims ordered total).1)
        (ordered.length + prims.length) ∧
      TreeBoxInv idb
        (createLeafNode (buildAabb prims) prims ordered total).2.1
        (createLeafNode (buildAabb prims) prims ordered total).1 := by
  refine ⟨prims.map (fun p => p.id), ?_, ?_, ?_, ?_⟩
  · rfl
  · exact List.Perm.refl _
  · simp [createLeafNode, leafRanges, RangesConsec]
  · simp only [createLeafNode]
    intro k hk1 hk2
    have hklen : k < (ordered ++ prims.map fun p => p.id).length := by
      simp only [List.length_append, List.length_map]
      omega
    refine ⟨hklen, ?_⟩
    rw [List.getD_append_right _ _ _ _ hk1]
    have hj : k - ordered.length < prims.length := by omega
    rw [List.getD_eq_get _ 0 (by simpa using hj), List.get_map]
    have hmem := List.get_mem prims (k - ordered.length) hj
    rw [hid _ hmem]
    exact mem_fits_foldl prims AABB.EMPTY _ hmem


theorem build_glue (idb : Nat → AABB) (fuel : Nat)
    (ih : ∀ (prims : List BvhPrimitive) (ordered : List Nat) (total : Nat),
      (∀ p ∈ prims, idb p.id = p.aabb) →
      ∃ delta,
        (build_recursive fuel prims ordered total).2.1 = ordered ++ delta ∧
        List.Perm delta (prims.map (fun p => p.id)) ∧
        RangesConsec ordered.length
          (leafRanges (build_recursive fuel prims ordered total).1)
          (ordered.length + prims.length) ∧
        TreeBoxInv idb (build_recursive fuel prims ordered total).2.1
          (build_recursive fuel prims ordered total).1)
    (prims l1 l2 : List BvhPrimitive) (ax : Axis) (ordered : List Nat)
    (total1 : Nat) (hperm : List.Perm (l1 ++ l2) prims)
    (hid : ∀ p ∈ prims, idb p.id = p.aabb) :
    ∃ delta,
      (build_recursive fuel l2 (build_recursive fuel l1 ordered total1).2.1
          (build_recursive fuel l1 ordered total1).2.2).2.1 = ordered ++ delta ∧
      List.Perm delta (prims.map (fun p => p.id)) ∧
      RangesConsec ordered.length
        (leafRanges (BuildBvhNode.new_interior ax
          (build_recursive fuel l1 ordered total1).1
          (build_recursive fuel l2 (build_recursive fuel l1 ordered total1).2.1
            (build_recursive fuel l1 ordered total1).2.2).1))
        (ordered.length + prims.length) ∧
      TreeBoxInv idb
        (build_recursive fuel l2 (build_recursive fuel l1 ordered total1).2.1
          (build_recursive fuel l1 ordered total1).2.2).2.1
        (BuildBvhNode.new_interior ax
          (build_recursive fuel l1 ordered total1).1
          (build_recursive fuel l2 (build_recursive fuel l1 ordered total1).2.1
            (build_recursive fuel l1 ordered total1).2.2).1) := by
  have hsub : ∀ p ∈ l1 ++ l2, p ∈ prims := fun p hp => hperm.subset hp
  have hid1 : ∀ p ∈ l1, idb p.id = p.aabb :=
    fun p hp => hid p (hsub p (List.mem_append.2 (Or.inl hp)))
  have hid2 : ∀ p ∈ l2, idb p.id = p.aabb :=
    fun p hp => hid p (hsub p (List.mem_append.2 (Or.inr hp)))
  obtain ⟨d1, e1, p1, r1, t1⟩ := ih l1 ordered total1 hid1
  obtain ⟨d2, e2, p2, r2, t2⟩ := ih l2 (build_recursive fuel l1 ordered total1).2.1
    (build_recursive fuel l1 ordered total1).2.2 hid2
  have hd1len : d1.length = l1.length := by simpa using p1.length_eq
  have hlen12 : l1.length + l2.length = prims.length := by
    have := hperm.length_eq
    simpa using this
  refine ⟨d1 ++ d2, ?_, ?_, ?_, ?_⟩
  · rw [e2, e1, List.append_assoc]
  · have happ : List.Perm (d1 ++ d2)
        ((l1.map (fun p => p.id)) ++ (l2.map (fun p => p.id))) :=
      List.Perm.append p1 p2
    rw [← List.map_append] at happ
    exact happ.trans (hperm.map _)
  · show RangesConsec ordered.length
      (leafRanges (build_recursive fuel l1 ordered total1).1 ++
        leafRanges (build_recursive fuel l2 _ _).1) (ordered.length + prims.length)
    have hb : (build_recursive fuel l1 ordered total1).2.1.length =
        ordered.length + l1.length := by
      rw [e1]
      simp [hd1len]
    rw [hb] at r2
    have he : ordered.length + l1.length + l2.length =
        ordered.length + prims.length := by omega
    rw [he] at r2
    exact rangesConsec_append _ _ _ _ _ r1 r2
  · refine ⟨rfl, ?_, t2⟩
    rw [e2]
    exact treeBoxInv_append idb _ d2 _ t1

/-- Master invariant of `build_recursive`: the ordered-id list grows by a
permutation of the sub-slice's ids, the leaf ranges tile exactly the
appended segment, and the containment invariant holds for the tree. -/
theorem build_recursive_spec (idb : Nat → AABB) :
    ∀ (fuel : Nat) (prims : List BvhPrimitive) (ordered : List Nat) (total : Nat),
      (∀ p ∈ prims, idb p.id = p.aabb) →
      ∃ delta,
        (build_recursive fuel prims ordered total).2.1 = ordered ++ delta ∧
        List.Perm delta (prims.map (fun p => p.id)) ∧
        RangesConsec ordered.length
          (leafRanges (build_recursive fuel prims ordered total).1)
          (ordered.length + prims.length) ∧
        TreeBoxInv idb (build_recursive fuel prims ordered total).2.1
          (build_recursive fuel prims ordered total).1 := by
  intro fuel
  induction fuel with
  | zero =>
    intro prims ordered total hid
    exact createLeaf_spec idb prims ordered (total + 1) hid
  | succ fuel ih =>
    intro prims ordered total hid
    simp only [build_recursive]
    split
    · exact createLeaf_spec idb prims ordered (total + 1) hid
    · split
      · exact createLeaf_spec idb prims ordered (total + 1) hid
      · split
        · have hperm : List.Perm
              ((selectNthModel (buildCentroidsAabb prims).max_axis prims).take
                    (prims.length / 2) ++
                (selectNthModel (buildCentroidsAabb prims).max_axis prims).drop
                    (prims.length / 2)) prims := by
            rw [List.take_append_drop]
            exact List.mergeSort_perm prims _
          exact build_glue idb fuel ih prims _ _ _ ordered (total + 1) hperm hid
        · split
          · have hperm : List.Perm
                ((prims.partition (fun prim =>
                    decide (bucketIndex (buildCentroidsAabb prims)
                      (buildCentroidsAabb prims).max_axis prim.aabb.center ≤
                    (sahChoice (sahCosts (sahBuckets (buildCentroidsAabb prims)
                      (buildCentroidsAabb prims).max_axis prims))).1))).1 ++
                  (prims.partition (fun prim =>
                    decide (bucketIndex (buildCentroidsAabb prims)
                      (buildCentroidsAabb prims).max_axis prim.aabb.center ≤
                    (sahChoice (sahCosts (sahBuckets (buildCentroidsAabb prims)
                      (buildCentroidsAabb prims).max_axis prims))).1))).2) prims := by
              rw [List.partition_eq_filter_filter]
              exact List.filter_append_perm _ prims
            exact build_glue idb fuel ih prims _ _ _ ordered (total + 1) hperm hid
          · exact createLeaf_spec idb prims ordered (total + 1) hid


theorem range_map_getD [Inhabited α] (l : List α) :
    (List.range l.length).map (fun i => l.getD i default) = l := by
  apply eq_of_getD
  · simp
  · intro k hk
    simp only [List.length_map, List.length_range] at hk
    rw [List.getD_eq_get _ default (by simpa using hk), List.get_map]
    have : (List.range l.length).get ⟨k, by simpa using hk⟩ = k :=
      List.get_range _ _
    rw [this]

/-- C3: after a build over `N ≥ 1` primitives, the leaf ranges are pairwise
disjoint and cover exactly `{0, …, N-1}`, the ordered-output id list is a
permutation of `0, …, N-1`, and the in-place reorder of `Bvh::build` is the
bijection sending position `k` to the original primitive whose id sits at
position `k` of the ordered-output list (so the final array is a
permutation of the original primitives). -/
theorem c3_leaf_partition_and_bijection (primitives : List Primitive)
    (hne : 1 ≤ primitives.length) :
    (∀ fuel : Nat,
      ((leafRanges (build_recursive fuel
          (primitives.enum.map (fun ip => BvhPrimitive.mk ip.1 ip.2.aabb))
          [] 0).1).Pairwise
        (fun r r' => ∀ j, r.1 ≤ j → j < r.1 + r.2 →
          ¬ (r'.1 ≤ j ∧ j < r'.1 + r'.2))) ∧
      (∀ j, j < primitives.length ↔
        ∃ r ∈ leafRanges (build_recursive fuel
            (primitives.enum.map (fun ip => BvhPrimitive.mk ip.1 ip.2.aabb))
            [] 0).1, r.1 ≤ j ∧ j < r.1 + r.2) ∧
      List.Perm (build_recursive fuel
          (primitives.enum.map (fun ip => BvhPrimitive.mk ip.1 ip.2.aabb))
          [] 0).2.1
        (List.range primitives.length)) ∧
    (Bvh.build primitives).2 =
      (build_recursive primitives.length
          (primitives.enum.map (fun ip => BvhPrimitive.mk ip.1 ip.2.aabb))
          [] 0).2.1.map (fun i => primitives.getD i default) ∧
    List.Perm (Bvh.build primitives).2 primitives := by
  have hid : ∀ p ∈ primitives.enum.map (fun ip => BvhPrimitive.mk ip.1 ip.2.aabb),
      (fun i => (primitives.getD i default).aabb) p.id = p.aabb := by
    intro p hp
    obtain ⟨ip, hip, rfl⟩ := List.mem_map.1 hp
    obtain ⟨i, a, rfl⟩ : ∃ i a, ip = (i, a) := ⟨ip.1, ip.2, rfl⟩
    have hget : primitives.get? i = some a := (List.mem_enum_iff_get? ).1 hip
    have hlt : i < primitives.length := (List.get?_eq_some.1 hget).1
    simp only
    rw [List.getD_eq_get _ default hlt]
    have := List.get?_eq_get hlt
    rw [this] at hget
    cases hget
    rfl
  have hmapids : (primitives.enum.map (fun ip => BvhPrimitive.mk ip.1 ip.2.aabb)).map
      (fun p => p.id) = List.range primitives.length := by
    rw [List.map_map]
    have : ((fun p : BvhPrimitive => p.id) ∘ fun ip : Nat × Primitive =>
        BvhPrimitive.mk ip.1 ip.2.aabb) = Prod.fst := rfl
    rw [this]
    exact List.enum_map_fst primitives
  have hlenmk : (primitives.enum.map (fun ip => BvhPrimitive.mk ip.1 ip.2.aabb)).length
      = primitives.length := by simp
  have hmain : ∀ fuel : Nat,
      List.Perm (build_recursive fuel
        (primitives.enum.map (fun ip => BvhPrimitive.mk ip.1 ip.2.aabb)) [] 0).2.1
        (List.range primitives.length) ∧
      RangesConsec 0 (leafRanges (build_recursive fuel
        (primitives.enum.map (fun ip => BvhPrimitive.mk ip.1 ip.2.aabb)) [] 0).1)
        primitives.length := by
    intro fuel
    obtain ⟨delta, e, p, r, t⟩ := build_recursive_spec
      (fun i => (primitives.getD i default).aabb) fuel
      (primitives.enum.map (fun ip => BvhPrimitive.mk ip.1 ip.2.aabb)) [] 0 hid
    rw [hmapids] at p
    constructor
    · rw [e, List.nil_append]
      exact p
    · simp only [List.length_nil, Nat.zero_add, hlenmk] at r
      exact r
  refine ⟨?_, ?_, ?_⟩
  · intro fuel
    obtain ⟨hperm, hconsec⟩ := hmain fuel
    refine ⟨?_, ?_, hperm⟩
    · have hpw := rangesConsec_pairwise _ _ _ hconsec
      exact hpw.imp (by intro r r' h j h1 h2 hc; omega)
    · intro j
      constructor
      · intro hj
        exact rangesConsec_cover _ _ _ hconsec j (by omega) hj
      · rintro ⟨r, hr, h1, h2⟩
        have := (rangesConsec_subset _ _ _ hconsec r hr).2
        omega
  · obtain ⟨hperm, _⟩ := hmain primitives.length
    have hlen : (build_recursive primitives.length
        (primitives.enum.map (fun ip => BvhPrimitive.mk ip.1 ip.2.aabb)) [] 0).2.1.length
        = primitives.length := by
      have := hperm.length_eq
      simpa using this
    have hmem : ∀ x ∈ (build_recursive primitives.length
        (primitives.enum.map (fun ip => BvhPrimitive.mk ip.1 ip.2.aabb)) [] 0).2.1,
        x < primitives.length := by
      intro x hx
      have := hperm.mem_iff.1 hx
      exact List.mem_range.1 this
    have hnodup : (build_recursive primitives.length
        (primitives.enum.map (fun ip => BvhPrimitive.mk ip.1 ip.2.aabb)) [] 0).2.1.Nodup :=
      hperm.nodup_iff.2 (List.nodup_range _)
    exact sort_by_indices_spec primitives _ hlen hmem hnodup
  · obtain ⟨hperm, _⟩ := hmain primitives.length
    have hlen : (build_recursive primitives.length
        (primitives.enum.map (fun ip => BvhPrimitive.mk ip.1 ip.2.aabb)) [] 0).2.1.length
        = primitives.length := by
      have := hperm.length_eq
      simpa using this
    have hmem : ∀ x ∈ (build_recursive primitives.length
        (primitives.enum.map (fun ip => BvhPrimitive.mk ip.1 ip.2.aabb)) [] 0).2.1,
        x < primitives.length := by
      intro x hx
      exact List.mem_range.1 (hperm.mem_iff.1 hx)
    have hnodup : (build_recursive primitives.length
        (primitives.enum.map (fun ip => BvhPrimitive.mk ip.1 ip.2.aabb)) [] 0).2.1.Nodup :=
      hperm.nodup_iff.2 (List.nodup_range _)
    have heq : (Bvh.build primitives).2 = (build_recursive primitives.length
        (primitives.enum.map (fun ip => BvhPrimitive.mk ip.1 ip.2.aabb)) [] 0).2.1.map
        (fun i => primitives.getD i default) :=
      sort_by_indices_spec primitives _ hlen hmem hnodup
    rw [heq]
    have : List.Perm ((build_recursive primitives.length
        (primitives.enum.map (fun ip => BvhPrimitive.mk ip.1 ip.2.aabb)) [] 0).2.1.map
          (fun i => primitives.getD i default))
        ((List.range primitives.length).map (fun i => primitives.getD i default)) :=
      hperm.map _
    rw [range_map_getD] at this
    exact this


/-- Witness for `c3_leaf_partition_and_bijection` on the concrete
three-primitive input. -/
theorem c3_leaf_partition_and_bijection_witness :
    List.Perm (Bvh.build exPrims).2 exPrims :=
  (c3_leaf_partition_and_bijection exPrims (by decide)).2.2

/-- C6: in every tree produced by `build_recursive` the containment
invariant holds: each leaf box contains the box of every primitive of its
range (resolved through the ordered id list and the id-to-box map of the
input handles), each interior box equals the union of its children's
boxes, and flattening preserves every node's box into the linear node at
the corresponding array index. -/
theorem c6_box_containment (idb : Nat → AABB) (fuel : Nat)
    (prims : List BvhPrimitive) (ordered : List Nat) (total : Nat)
    (hid : ∀ p ∈ prims, idb p.id = p.aabb) :
    TreeBoxInv idb (build_recursive fuel prims ordered total).2.1
      (build_recursive fuel prims ordered total).1 ∧
    (∀ i d sub, NodeAt (build_recursive fuel prims ordered total).1 i d sub →
      (flatten (build_recursive fuel prims ordered total).1).get? i =
          some (headLinear sub i) ∧
        (headLinear sub i).aabb = sub.nodeAabb) := by
  constructor
  · obtain ⟨delta, e, p, r, t⟩ := build_recursive_spec idb fuel prims ordered total hid
    exact t
  · intro i d sub hmem
    obtain ⟨hb, hlt, hget⟩ := entriesFrom_get _ 0 1 i d sub hmem
    have h0 : i - 0 = i := by omega
    rw [h0] at hget
    rw [flatten_eq_layout]
    refine ⟨hget, ?_⟩
    cases sub <;> rfl

/-- Witness for `c6_box_containment` at a concrete one-primitive build. -/
theorem c6_box_containment_witness :
    TreeBoxInv (fun _ => AABB.new ⟨0, 0, 0⟩ ⟨1, 1, 1⟩)
      (build_recursive 1 [⟨0, AABB.new ⟨0, 0, 0⟩ ⟨1, 1, 1⟩⟩] [] 0).2.1
      (build_recursive 1 [⟨0, AABB.new ⟨0, 0, 0⟩ ⟨1, 1, 1⟩⟩] [] 0).1 :=
  (c6_box_containment (fun _ => AABB.new ⟨0, 0, 0⟩ ⟨1, 1, 1⟩) 1
    [⟨0, AABB.new ⟨0, 0, 0⟩ ⟨1, 1, 1⟩⟩] [] 0 (by
      intro p hp
      rcases List.mem_singleton.1 hp with rfl
      rfl)).1


theorem minByFirst_some_fold : ∀ (xs : List (Nat × ℚ)) (a : Nat × ℚ),
    xs.foldl
      (fun acc p =>
        match acc with
        | none => some p
        | some q => if q.2 > p.2 then some p else some q) (some a) =
      some (xs.foldl (fun q p => if q.2 > p.2 then p else q) a) := by
  intro xs
  induction xs with
  | nil => intro a; rfl
  | cons x xs ih =>
    intro a
    simp only [List.foldl_cons]
    by_cases h : a.2 > x.2
    · rw [if_pos h, if_pos h]
      exact ih x
    · rw [if_neg h, if_neg h]
      exact ih a

theorem minByFirst_cons (x : Nat × ℚ) (xs : List (Nat × ℚ)) :
    minByFirst (x :: xs) =
      some (xs.foldl (fun q p => if q.2 > p.2 then p else q) x) := by
  unfold minByFirst
  simp only [List.foldl_cons]
  exact minByFirst_some_fold xs x

theorem min2_fold_enumFrom : ∀ (cs : List ℚ) (k : Nat) (acc : Nat × ℚ),
    ((cs.enumFrom k).foldl (fun q p => if q.2 > p.2 then p else q) acc).2 ≤ acc.2 ∧
    (∀ c ∈ cs,
      ((cs.enumFrom k).foldl (fun q p => if q.2 > p.2 then p else q) acc).2 ≤ c) ∧
    (((cs.enumFrom k).foldl (fun q p => if q.2 > p.2 then p else q) acc) = acc ∨
      ∃ j, j < cs.length ∧
        ((cs.enumFrom k).foldl (fun q p => if q.2 > p.2 then p else q) acc).1 = k + j ∧
        cs.getD j 0 =
          ((cs.enumFrom k).foldl (fun q p => if q.2 > p.2 then p else q) acc).2 ∧
        ((cs.enumFrom k).foldl (fun q p => if q.2 > p.2 then p else q) acc).2 < acc.2 ∧
        ∀ i, i < j →
          ((cs.enumFrom k).foldl (fun q p => if q.2 > p.2 then p else q) acc).2 <
            cs.getD i 0) := by
  intro cs
  induction cs with
  | nil =>
    intro k acc
    exact ⟨le_refl _, by simp, Or.inl rfl⟩
  | cons c cs ih =>
    intro k acc
    simp only [List.enumFrom_cons, List.foldl_cons]
    by_cases h : acc.2 > c
    · rw [if_pos (by simpa using h)]
      obtain ⟨q1, q2, q3⟩ := ih (k + 1) (k, c)
      refine ⟨le_of_lt (lt_of_le_of_lt q1 h), ?_, ?_⟩
      · intro c' hc'
        rcases List.mem_cons.1 hc' with rfl | hc''
        · exact q1
        · exact q2 c' hc''
      · right
        rcases q3 with heq | ⟨j, hj, h1, h2, h3, h4⟩
        · refine ⟨0, by simp, ?_, ?_, ?_, ?_⟩
          · rw [heq]
            simp
          · rw [heq]
            simp
          · rw [heq]
            exact h
          · intro i hi
            omega
        · refine ⟨j + 1, by simpa using hj, by omega, ?_, lt_trans h3 h, ?_⟩
          · simpa using h2
          · intro i hi
            cases i with
            | zero => simpa using h3
            | succ i => simpa using h4 i (by omega)
    · rw [if_neg (by simpa using h)]
      obtain ⟨q1, q2, q3⟩ := ih (k + 1) acc
      have hac : acc.2 ≤ c := le_of_not_lt h
      refine ⟨q1, ?_, ?_⟩
      · intro c' hc'
        rcases List.mem_cons.1 hc' with rfl | hc''
        · exact le_trans q1 hac
        · exact q2 c' hc''
      · rcases q3 with heq | ⟨j, hj, h1, h2, h3, h4⟩
        · exact Or.inl heq
        · refine Or.inr ⟨j + 1, by simpa using hj, by omega, by simpa using h2,
            h3, ?_⟩
          intro i hi
          cases i with
          | zero => simpa using lt_of_lt_of_le h3 hac
          | succ i => simpa using h4 i (by omega)

theorem minByFirst_enum_spec (costs : List ℚ) (hne : costs ≠ []) :
    ∃ i c, minByFirst costs.enum = some (i, c) ∧ i < costs.length ∧
      costs.getD i 0 = c ∧ (∀ j, j < costs.length → c ≤ costs.getD j 0) ∧
      (∀ j, j < i → c < costs.getD j 0) := by
  obtain ⟨c0, rest, rfl⟩ : ∃ c0 rest, costs = c0 :: rest := by
    cases costs with
    | nil => exact absurd rfl hne
    | cons c0 rest => exact ⟨c0, rest, rfl⟩
  rw [show (c0 :: rest).enum = (0, c0) :: rest.enumFrom 1 by rfl, minByFirst_cons]
  obtain ⟨q1, q2, q3⟩ := min2_fold_enumFrom rest 1 (0, c0)
  set res := (rest.enumFrom 1).foldl (fun q p => if q.2 > p.2 then p else q) (0, c0)
    with hres
  have hmin : ∀ j, j < (c0 :: rest).length → res.2 ≤ (c0 :: rest).getD j 0 := by
    intro j hj
    cases j with
    | zero => simpa using q1
    | succ j =>
      simp only [List.getD_cons_succ]
      have hjlt : j < rest.length := by simpa using hj
      apply q2
      rw [List.getD_eq_get rest 0 hjlt]
      exact List.get_mem rest j hjlt
  rcases q3 with heq | ⟨j, hj, h1, h2, h3, h4⟩
  · refine ⟨res.1, res.2, rfl, ?_, ?_, hmin, ?_⟩
    · rw [heq]
      simp
    · rw [heq]
      simp
    · rw [heq]
      intro j hj
      simp at hj
  · refine ⟨res.1, res.2, rfl, ?_, ?_, hmin, ?_⟩
    · rw [h1]
      simp only [List.length_cons]
      omega
    · rw [h1, show 1 + j = j + 1 by omega]
      simpa using h2
    · intro i hi
      rw [h1] at hi
      cases i with
      | zero => simpa using h3
      | succ i =>
        simp only [List.getD_cons_succ]
        exact h4 i (by omega)


/-- C5: the SAH split selection (`min_by` with `total_cmp` over the
enumerated cost array) picks the first minimum encountered: the chosen
bucket index is a valid candidate index whose cost equals the selected
cost, that cost is a global minimum of the cost array, and every
lower-indexed candidate has strictly larger cost. -/
theorem c5_sah_first_minimum (prims : List BvhPrimitive)
    (hlen : 2 < prims.length) :
    (sahChoice (sahCosts (sahBuckets (buildCentroidsAabb prims)
        (buildCentroidsAabb prims).max_axis prims))).1 <
      (sahCosts (sahBuckets (buildCentroidsAabb prims)
        (buildCentroidsAabb prims).max_axis prims)).length ∧
    (sahCosts (sahBuckets (buildCentroidsAabb prims)
        (buildCentroidsAabb prims).max_axis prims)).getD
      (sahChoice (sahCosts (sahBuckets (buildCentroidsAabb prims)
        (buildCentroidsAabb prims).max_axis prims))).1 0 =
      (sahChoice (sahCosts (sahBuckets (buildCentroidsAabb prims)
        (buildCentroidsAabb prims).max_axis prims))).2 ∧
    (∀ j, j < (sahCosts (sahBuckets (buildCentroidsAabb prims)
        (buildCentroidsAabb prims).max_axis prims)).length →
      (sahChoice (sahCosts (sahBuckets (buildCentroidsAabb prims)
        (buildCentroidsAabb prims).max_axis prims))).2 ≤
        (sahCosts (sahBuckets (buildCentroidsAabb prims)
          (buildCentroidsAabb prims).max_axis prims)).getD j 0) ∧
    (∀ j, j < (sahChoice (sahCosts (sahBuckets (buildCentroidsAabb prims)
        (buildCentroidsAabb prims).max_axis prims))).1 →
      (sahChoice (sahCosts (sahBuckets (buildCentroidsAabb prims)
        (buildCentroidsAabb prims).max_axis prims))).2 <
        (sahCosts (sahBuckets (buildCentroidsAabb prims)
          (buildCentroidsAabb prims).max_axis prims)).getD j 0) := by
  have hne : sahCosts (sahBuckets (buildCentroidsAabb prims)
      (buildCentroidsAabb prims).max_axis prims) ≠ [] := by
    simp [sahCosts, SPLIT_COUNT, SAH_BUCKETS]
  obtain ⟨i, c, hmin, h1, h2, h3, h4⟩ := minByFirst_enum_spec _ hne
  have hch : sahChoice (sahCosts (sahBuckets (buildCentroidsAabb prims)
      (buildCentroidsAabb prims).max_axis prims)) = (i, c) := by
    rw [sahChoice, hmin]
    rfl
  rw [hch]
  exact ⟨h1, h2, h3, h4⟩

/-- Witness for `c5_sah_first_minimum` at a concrete three-primitive slice. -/
theorem c5_sah_first_minimum_witness :
    (sahChoice (sahCosts (sahBuckets
        (buildCentroidsAabb [⟨0, AABB.new ⟨0, 0, 0⟩ ⟨1, 1, 1⟩⟩,
          ⟨1, AABB.new ⟨2, 0, 0⟩ ⟨3, 1, 1⟩⟩, ⟨2, AABB.new ⟨4, 0, 0⟩ ⟨5, 1, 1⟩⟩])
        (buildCentroidsAabb [⟨0, AABB.new ⟨0, 0, 0⟩ ⟨1, 1, 1⟩⟩,
          ⟨1, AABB.new ⟨2, 0, 0⟩ ⟨3, 1, 1⟩⟩, ⟨2, AABB.new ⟨4, 0, 0⟩ ⟨5, 1, 1⟩⟩]).max_axis
        [⟨0, AABB.new ⟨0, 0, 0⟩ ⟨1, 1, 1⟩⟩, ⟨1, AABB.new ⟨2, 0, 0⟩ ⟨3, 1, 1⟩⟩,
          ⟨2, AABB.new ⟨4, 0, 0⟩ ⟨5, 1, 1⟩⟩]))).1 <
      (sahCosts (sahBuckets
        (buildCentroidsAabb [⟨0, AABB.new ⟨0, 0, 0⟩ ⟨1, 1, 1⟩⟩,
          ⟨1, AABB.new ⟨2, 0, 0⟩ ⟨3, 1, 1⟩⟩, ⟨2, AABB.new ⟨4, 0, 0⟩ ⟨5, 1, 1⟩⟩])
        (buildCentroidsAabb [⟨0, AABB.new ⟨0, 0, 0⟩ ⟨1, 1, 1⟩⟩,
          ⟨1, AABB.new ⟨2, 0, 0⟩ ⟨3, 1, 1⟩⟩, ⟨2, AABB.new ⟨4, 0, 0⟩ ⟨5, 1, 1⟩⟩]).max_axis
        [⟨0, AABB.new ⟨0, 0, 0⟩ ⟨1, 1, 1⟩⟩, ⟨1, AABB.new ⟨2, 0, 0⟩ ⟨3, 1, 1⟩⟩,
          ⟨2, AABB.new ⟨4, 0, 0⟩ ⟨5, 1, 1⟩⟩])).length :=
  (c5_sah_first_minimum _ (by decide)).1


/-- C4: on a sub-slice of more than two primitives with a non-degenerate
centroid box and nonzero total box area, `build_recursive` emits a leaf if
and only if the SAH verdict `min_cost = 0.5 + (minimal bucket cost) /
aabb.area()` is at least the leaf cost `|S|` and `|S|` does not exceed
`MAX_PRIMS_IN_NODE = 4`; otherwise the node is split, with the children
built from the in-place partition of the sub-slice by bucket membership
relative to the winning split bucket. -/
theorem c4_sah_leaf_criterion (fuel : Nat) (prims : List BvhPrimitive)
    (ordered : List Nat) (total : Nat)
    (hlen : 2 < prims.length)
    (harea : (buildAabb prims).area ≠ 0)
    (hcent : (buildCentroidsAabb prims).is_empty = false) :
    ((∃ a off cnt, (build_recursive (fuel + 1) prims ordered total).1 =
        BuildBvhNode.leaf a off cnt) ↔
      ((prims.length : ℚ) ≤ 1 / 2 +
          (sahChoice (sahCosts (sahBuckets (buildCentroidsAabb prims)
            (buildCentroidsAabb prims).max_axis prims))).2 /
          (buildAabb prims).area ∧
        prims.length ≤ MAX_PRIMS_IN_NODE)) ∧
    (¬ ((prims.length : ℚ) ≤ 1 / 2 +
          (sahChoice (sahCosts (sahBuckets (buildCentroidsAabb prims)
            (buildCentroidsAabb prims).max_axis prims))).2 /
          (buildAabb prims).area ∧
        prims.length ≤ MAX_PRIMS_IN_NODE) →
      (build_recursive (fuel + 1) prims ordered total).1 =
        BuildBvhNode.new_interior (buildCentroidsAabb prims).max_axis
          (build_recursive fuel
            (prims.partition (fun prim =>
              decide (bucketIndex (buildCentroidsAabb prims)
                (buildCentroidsAabb prims).max_axis prim.aabb.center ≤
              (sahChoice (sahCosts (sahBuckets (buildCentroidsAabb prims)
                (buildCentroidsAabb prims).max_axis prims))).1))).1
            ordered (total + 1)).1
          (build_recursive fuel
            (prims.partition (fun prim =>
              decide (bucketIndex (buildCentroidsAabb prims)
                (buildCentroidsAabb prims).max_axis prim.aabb.center ≤
              (sahChoice (sahCosts (sahBuckets (buildCentroidsAabb prims)
                (buildCentroidsAabb prims).max_axis prims))).1))).2
            (build_recursive fuel
              (prims.partition (fun prim =>
                decide (bucketIndex (buildCentroidsAabb prims)
                  (buildCentroidsAabb prims).max_axis prim.aabb.center ≤
                (sahChoice (sahCosts (sahBuckets (buildCentroidsAabb prims)
                  (buildCentroidsAabb prims).max_axis prims))).1))).1
              ordered (total + 1)).2.1
            (build_recursive fuel
              (prims.partition (fun prim =>
                decide (bucketIndex (buildCentroidsAabb prims)
                  (buildCentroidsAabb prims).max_axis prim.aabb.center ≤
                (sahChoice (sahCosts (sahBuckets (buildCentroidsAabb prims)
                  (buildCentroidsAabb prims).max_axis prims))).1))).1
              ordered (total + 1)).2.2).1) := by
  have hc1 : ¬ ((buildAabb prims).area = 0 ∨ prims.length = 1) := by
    rintro (h | h)
    · exact harea h
    · omega
  have hc2 : ¬ ((buildCentroidsAabb prims).is_empty = true) := by
    rw [hcent]
    simp
  have hc3 : ¬ (prims.length ≤ 2) := by omega
  simp only [build_recursive]
  rw [if_neg hc1, if_neg hc2, if_neg hc3]
  by_cases hsplit : prims.length > MAX_PRIMS_IN_NODE ∨
      1 / 2 + (sahChoice (sahCosts (sahBuckets (buildCentroidsAabb prims)
        (buildCentroidsAabb prims).max_axis prims))).2 / (buildAabb prims).area <
        (prims.length : ℚ)
  · rw [if_pos hsplit]
    constructor
    · apply iff_of_false
      · rintro ⟨a, off, cnt, h⟩
        simp [BuildBvhNode.new_interior] at h
      · rintro ⟨hcost, hcnt⟩
        rcases hsplit with h | h
        · omega
        · exact absurd hcost (not_le_of_lt h)
    · intro _
      rfl
  · rw [if_neg hsplit]
    rw [not_or] at hsplit
    obtain ⟨h4, hcost⟩ := hsplit
    constructor
    · apply iff_of_true
      · exact ⟨_, _, _, rfl⟩
      · exact ⟨le_of_not_lt hcost, by omega⟩
    · intro hcon
      exact absurd ⟨le_of_not_lt hcost, by omega⟩ hcon

/-- Witness for `c4_sah_leaf_criterion` at a concrete three-primitive
slice (three well-separated unit boxes: the SAH splits, so no leaf). -/
theorem c4_sah_leaf_criterion_witness :
    ((∃ a off cnt, (build_recursive 3
        [⟨0, AABB.new ⟨0, 0, 0⟩ ⟨1, 1, 1⟩⟩, ⟨1, AABB.new ⟨2, 0, 0⟩ ⟨3, 1, 1⟩⟩,
          ⟨2, AABB.new ⟨4, 0, 0⟩ ⟨5, 1, 1⟩⟩] [] 0).1 =
        BuildBvhNode.leaf a off cnt) ↔
      ((3 : ℚ) ≤ 1 / 2 +
          (sahChoice (sahCosts (sahBuckets
            (buildCentroidsAabb [⟨0, AABB.new ⟨0, 0, 0⟩ ⟨1, 1, 1⟩⟩,
              ⟨1, AABB.new ⟨2, 0, 0⟩ ⟨3, 1, 1⟩⟩, ⟨2, AABB.new ⟨4, 0, 0⟩ ⟨5, 1, 1⟩⟩])
            (buildCentroidsAabb [⟨0, AABB.new ⟨0, 0, 0⟩ ⟨1, 1, 1⟩⟩,
              ⟨1, AABB.new ⟨2, 0, 0⟩ ⟨3, 1, 1⟩⟩,
              ⟨2, AABB.new ⟨4, 0, 0⟩ ⟨5, 1, 1⟩⟩]).max_axis
            [⟨0, AABB.new ⟨0, 0, 0⟩ ⟨1, 1, 1⟩⟩, ⟨1, AABB.new ⟨2, 0, 0⟩ ⟨3, 1, 1⟩⟩,
              ⟨2, AABB.new ⟨4, 0, 0⟩ ⟨5, 1, 1⟩⟩]))).2 /
          (buildAabb [⟨0, AABB.new ⟨0, 0, 0⟩ ⟨1, 1, 1⟩⟩,
            ⟨1, AABB.new ⟨2, 0, 0⟩ ⟨3, 1, 1⟩⟩, ⟨2, AABB.new ⟨4, 0, 0⟩ ⟨5, 1, 1⟩⟩]).area ∧
        (3 : Nat) ≤ MAX_PRIMS_IN_NODE)) := by
  have h := (c4_sah_leaf_criterion 2
    [⟨0, AABB.new ⟨0, 0, 0⟩ ⟨1, 1, 1⟩⟩, ⟨1, AABB.new ⟨2, 0, 0⟩ ⟨3, 1, 1⟩⟩,
      ⟨2, AABB.new ⟨4, 0, 0⟩ ⟨5, 1, 1⟩⟩] [] 0 (by decide) (by decide) (by decide)).1
  simpa using h

/-! ## C8: the 64-entry visit stack never overflows under the depth bound -/

/-- Every build tree has at least one node on its longest path. -/
theorem maxPathLen_pos : ∀ t : BuildBvhNode, 0 < t.maxPathLen := by
  intro t
  cases t <;> simp [BuildBvhNode.maxPathLen]

/-- Traversal safety invariant for the main loop of `Bvh::intersect`: if the
current node index is a live entry of the depth-first layout at depth at
least `offset + 1` (root at depth 1), and every pending stack slot `j`
holds a live entry at depth at least `j + 2`, the fueled loop never reaches
the panic branch — neither the out-of-bounds write into the 64-entry
`nodes_to_visit` array nor an out-of-bounds node read. -/
theorem intersectLoop_safe (t : BuildBvhNode) (hwf : t.wf)
    (hdepth : t.maxPathLen ≤ 64) (primitives : List Primitive) (ray : Ray)
    (inv_dir : Vec3) (dir_is_neg : BVec3) :
    ∀ (fuel cur offset : Nat) (stack : Nat → Nat) (tmax : ℚ)
      (closest : Option HitInfo),
      (∃ d sub, (cur, d, sub) ∈ entriesFrom t 0 1 ∧ offset + 1 ≤ d) →
      (∀ j, j < offset →
        ∃ dj subj, (stack j, dj, subj) ∈ entriesFrom t 0 1 ∧ j + 2 ≤ dj) →
      intersectLoop (layoutList t 0) primitives ray inv_dir dir_is_neg fuel
        cur offset stack tmax closest ≠ TravOutcome.panic := by
  intro fuel
  induction fuel with
  | zero =>
    intro cur offset stack tmax closest _ _
    simp only [intersectLoop]
    exact fun h => TravOutcome.noConfusion h
  | succ fuel ih =>
    intro cur offset stack tmax closest hcur hstack
    obtain ⟨d, sub, hmem, hoff⟩ := hcur
    obtain ⟨hb, hsz, hget⟩ := entriesFrom_get t 0 1 cur d sub hmem
    simp only [Nat.sub_zero] at hget
    have hpop : ∀ (tm : ℚ) (cl : Option HitInfo), offset ≠ 0 →
        intersectLoop (layoutList t 0) primitives ray inv_dir dir_is_neg fuel
          (stack (offset - 1)) (offset - 1) stack tm cl ≠ TravOutcome.panic := by
      intro tm cl h0
      obtain ⟨dj, subj, hmemj, hdj⟩ := hstack (offset - 1) (by omega)
      exact ih _ _ _ tm cl ⟨dj, subj, hmemj, by omega⟩
        (fun j hj => hstack j (by omega))
    cases sub with
    | leaf a off cnt =>
      have hcnt : 0 < cnt := entriesFrom_wf t 0 1 cur d _ hwf hmem
      simp only [headLinear] at hget
      simp only [intersectLoop, hget, LinearBvhNode.new_leaf]
      repeat' split
      all_goals first
        | exact fun h => TravOutcome.noConfusion h
        | omega
        | exact hpop _ _ (by assumption)
    | interior ax a l r =>
      simp only [headLinear] at hget
      have hdep := entriesFrom_depth t 0 1 cur d _ hmem
      simp only [BuildBvhNode.maxPathLen] at hdep
      have hmaxp : 1 ≤ max l.maxPathLen r.maxPathLen :=
        le_trans (maxPathLen_pos l) (le_max_left _ _)
      have hofflt : offset < 64 := by omega
      obtain ⟨hchl, hchr⟩ := entriesFrom_children t 0 1 cur d ax a l r hmem
      have hidx : cur + l.size + 1 = cur + 1 + l.size := by omega
      have hGoR : intersectLoop (layoutList t 0) primitives ray inv_dir dir_is_neg
          fuel (cur + l.size + 1) (offset + 1)
          (Function.update stack offset (cur + 1)) tmax closest ≠
            TravOutcome.panic := by
        rw [hidx]
        refine ih _ _ _ _ _ ⟨d + 1, r, hchr, by omega⟩ ?_
        intro j hj
        rcases (show j < offset ∨ j = offset by omega) with hj' | hj'
        · obtain ⟨dj, subj, hmemj, hdj⟩ := hstack j hj'
          refine ⟨dj, subj, ?_, hdj⟩
          rw [Function.update_noteq (by omega : j ≠ offset)]
          exact hmemj
        · subst hj'
          refine ⟨d + 1, l, ?_, by omega⟩
          rw [Function.update_same]
          exact hchl
      have hGoL : intersectLoop (layoutList t 0) primitives ray inv_dir dir_is_neg
          fuel (cur + 1) (offset + 1)
          (Function.update stack offset (cur + l.size + 1)) tmax closest ≠
            TravOutcome.panic := by
        refine ih _ _ _ _ _ ⟨d + 1, l, hchl, by omega⟩ ?_
        intro j hj
        rcases (show j < offset ∨ j = offset by omega) with hj' | hj'
        · obtain ⟨dj, subj, hmemj, hdj⟩ := hstack j hj'
          refine ⟨dj, subj, ?_, hdj⟩
          rw [Function.update_noteq (by omega : j ≠ offset)]
          exact hmemj
        · subst hj'
          refine ⟨d + 1, r, ?_, by omega⟩
          rw [Function.update_same]
          rw [hidx]
          exact hchr
      simp only [intersectLoop, hget, LinearBvhNode.new_interior]
      repeat' split
      all_goals first
        | exact fun h => TravOutcome.noConfusion h
        | omega
        | exact hGoR
        | exact hGoL
        | exact hpop _ _ (by assumption)

/-- C8: for every BVH tree whose leaves each hold at least one primitive
(as the builder's leaves always do — `primitive_count > 0` is the leaf
marker of the linear format) and whose every root-to-leaf path has at most
64 nodes, `Bvh::intersect` over the flattened array never reaches the
panic branch: every push finds the stack index strictly below 64, so every
write into the fixed 64-entry `nodes_to_visit` array is in bounds (and
every node read is in bounds as well), for every ray, bound, primitive
array and fuel. -/
theorem c8_visit_stack_safe (t : BuildBvhNode) (hwf : t.wf)
    (hdepth : t.maxPathLen ≤ 64) (ray : Ray) (tmax : ℚ)
    (primitives : List Primitive) (fuel : Nat) :
    Bvh.intersect (flatten t) ray tmax primitives fuel ≠ TravOutcome.panic := by
  rw [flatten_eq_layout]
  exact intersectLoop_safe t hwf hdepth primitives ray (Vec3.one.cdiv ray.dir)
    ((Vec3.one.cdiv ray.dir).cmplt Vec3.zero) fuel 0 0 (fun _ => 0) tmax none
    ⟨1, t, entriesFrom_self t 0 1, le_refl 1⟩
    (fun j hj => absurd hj (Nat.not_lt_zero j))

/-- Concrete tree for the C8 witness: one interior node over two singleton
leaves. -/
def c8ExTree : BuildBvhNode :=
  BuildBvhNode.interior Axis.X (AABB.new ⟨0, 0, 0⟩ ⟨3, 1, 1⟩)
    (BuildBvhNode.leaf (AABB.new ⟨0, 0, 0⟩ ⟨1, 1, 1⟩) 0 1)
    (BuildBvhNode.leaf (AABB.new ⟨2, 0, 0⟩ ⟨3, 1, 1⟩) 1 1)

theorem c8_visit_stack_safe_witness :
    c8ExTree.wf ∧ c8ExTree.maxPathLen ≤ 64 ∧
      Bvh.intersect (flatten c8ExTree) ⟨⟨0, 0, 0⟩, ⟨1, 1, 1⟩⟩ 1000 [] 5 ≠
        TravOutcome.panic :=
  ⟨⟨Nat.one_pos, Nat.one_pos⟩, by decide,
    c8_visit_stack_safe c8ExTree ⟨Nat.one_pos, Nat.one_pos⟩ (by decide)
      ⟨⟨0, 0, 0⟩, ⟨1, 1, 1⟩⟩ 1000 [] 5⟩

end RtSummer
